import Mathlib

/-!
Shallow embedding of the work-item distribution broker in
`src/ItemDistributor.hpp` (class `ItemDistributor`, class `Item`,
struct `Worker`).

Modelling conventions:

* `ItemID` (a 64-bit unsigned integer from `ItemWorkerProtocol.hpp`) is
  modelled as `Nat`; the broker only parses, compares and reduces IDs
  modulo `stride`, so no wrap-around arithmetic occurs.
* C++ `Item` objects are heap objects handled through `std::shared_ptr`.
  Object identity is modelled by a *serial number*: the `n`-th item ever
  constructed by `receive_producer_item` has serial `n`, and the state
  field `created` records `(id, payload)` for each serial, so worker
  queues are lists of serials.  The reference count of an item equals the
  number of queue slots holding its serial (plus, transiently, the
  dispatcher's own reference during `on_generator_pollin`).
* The `Item` destructor (line 80) appends the item's ID to
  `completed_items_`.  `releaseList` below reproduces, one reference at a
  time, the destruction of a batch of `shared_ptr`s: a serial is appended
  to the ledger exactly when the destroyed reference is the last one.
* `workers_` is a `std::map<std::string, std::unique_ptr<Worker>>`; it is
  modelled as an association list kept sorted by key in ascending string
  order, which is exactly the iteration order of `std::map`.
* Socket transmissions and log statements become `Output` values; C++
  `assert` failures, the `std::out_of_range` thrown by `workers_.at`, and
  the out-of-bounds `peekstr(3)` access become `Err` values of an
  `Except` result.
-/

/-- Modelled from the spec: `WorkerQueuePolicy` is declared in
`ItemWorkerProtocol.hpp`, which is not among the sources; spec section 3
lists the three queueing modes with wire tokens `Async`, `PrebufferOne`,
`Skip`. -/
inductive WorkerQueuePolicy
  | Async
  | PrebufferOne
  | Skip
deriving DecidableEq, Repr

/-- `struct Worker` (src/ItemDistributor.hpp lines 88-99).  Queues hold
item serial numbers.  `next_heartbeat_time` is value-initialized by
`std::make_unique` and never written by the distributor. -/
structure Worker where
  stride : Nat
  offset : Nat
  queue_policy : WorkerQueuePolicy
  client_name : String
  waiting_items : List Nat := []
  outstanding_items : List Nat := []
  next_heartbeat_time : Nat := 0
deriving DecidableEq, Repr

/-- `Worker::wants_item` (line 98): `id % stride == offset`. -/
def Worker.wants_item (w : Worker) (id : Nat) : Bool :=
  id % w.stride == w.offset

/-- References to an item serial held by one worker's two queues. -/
def Worker.occ (w : Worker) (s : Nat) : Nat :=
  w.waiting_items.count s + w.outstanding_items.count s

/-- Broker state: the fields of `ItemDistributor` (lines 295-299)
together with the bookkeeping needed to name items.  `created` lists
`(id, payload)` of every item ever constructed (serial = index);
`ledger` is `completed_items_` (as serials); `sent` records the serials
whose IDs have been transmitted to the producer by earlier drains. -/
structure DState where
  created : List (Nat × String) := []
  workers : List (String × Worker) := []
  ledger : List Nat := []
  sent : List Nat := []
deriving DecidableEq, Repr

/-- The item ID carried by serial `s`. -/
def idOf (st : DState) (s : Nat) : Nat :=
  ((st.created[s]?).getD (0, "")).1

/-- The payload carried by serial `s`. -/
def payloadOf (st : DState) (s : Nat) : String :=
  ((st.created[s]?).getD (0, "")).2

/-- Total number of live references to serial `s` across all workers. -/
def occAll (ws : List (String × Worker)) (s : Nat) : Nat :=
  (ws.map (fun kw => kw.2.occ s)).sum

/-- `workers_.find`-style lookup (first matching key). -/
def mapLookup (k : String) : List (String × Worker) → Option Worker
  | [] => none
  | (k', w) :: rest => if k = k' then some w else mapLookup k rest

/-- Byte-wise lexicographic comparison of character lists, the order of
`std::string::operator<` that a `std::map<std::string, ...>` keys by. -/
def charListLt : List Char → List Char → Bool
  | _, [] => false
  | [], _ :: _ => true
  | a :: as, b :: bs =>
    if a.toNat < b.toNat then true
    else if b.toNat < a.toNat then false
    else charListLt as bs

/-- Lexicographic string comparison (the `std::map` key order). -/
def strLt (a b : String) : Bool := charListLt a.data b.data

/-- `std::map` insertion at the sorted position; an existing key has its
mapped value replaced in place (`workers_[identity] = std::move(c)`). -/
def mapInsert (k : String) (w : Worker) : List (String × Worker) → List (String × Worker)
  | [] => [(k, w)]
  | (k', w') :: rest =>
    if strLt k k' then (k, w) :: (k', w') :: rest
    else if k = k' then (k, w) :: rest
    else (k', w') :: mapInsert k w rest

/-- Replace the value stored under an existing key, keeping position. -/
def mapUpdate (k : String) (w : Worker) : List (String × Worker) → List (String × Worker)
  | [] => []
  | (k', w') :: rest =>
    if k = k' then (k, w) :: rest else (k', w') :: mapUpdate k w rest

/-- `workers_.erase(identity)`. -/
def mapErase (k : String) : List (String × Worker) → List (String × Worker)
  | [] => []
  | (k', w') :: rest => if k = k' then rest else (k', w') :: mapErase k rest

/-- Frames transmitted and lines logged by the broker. -/
inductive Output
  | workItem (identity : String) (id : Nat) (payload : String)
  | completion (id : Nat)
  | heartbeat (identity : String)
  | logInfo (msg : String)
  | logError (msg : String)
deriving DecidableEq, Repr

/-- Abnormal terminations of an event handler: failed C++ `assert`s, the
`std::out_of_range` thrown by `workers_.at`, and the out-of-bounds
element access of `peekstr(3)` on a three-part message. -/
inductive Err
  | assertFormat
  | peekOutOfRange
  | assertParse
  | unknownWorker
  | assertOutstanding
deriving DecidableEq, Repr

/-- Destruction of one `shared_ptr<Item>` reference to serial `s`:
`remaining` are the references of the same destruction batch that are
destroyed after this one (they still count as live).  When no reference
is left anywhere, `Item::~Item` (line 80) appends the ID — recorded here
as the serial — to the completion ledger. -/
def releaseOne (st : DState) (s : Nat) (remaining : List Nat) : DState :=
  if occAll st.workers s + remaining.count s = 0 then
    { st with ledger := st.ledger ++ [s] }
  else st

/-- Destroy a batch of references one at a time (a `deque` being cleared
or a `Worker` being deleted destroys its `shared_ptr`s in sequence). -/
def releaseList (st : DState) : List Nat → DState
  | [] => st
  | s :: rest => releaseList (releaseOne st s rest) rest

/-- `ItemDistributor::send_pending_completions` (lines 143-152).
`failAt = some k` means the `k`-th `generator_socket_.send` throws
`zmq::error_t`; the loop stops there and the error is logged.  The
`completed_items_.clear()` on line 151 runs unconditionally, after the
`try`/`catch`, so unsent IDs are dropped in the failure case as well. -/
def send_pending_completions (failAt : Option Nat) (st : DState) :
    DState × List Output :=
  let k := failAt.getD st.ledger.length
  let sentNow := st.ledger.take k
  let outs := sentNow.map (fun s => Output.completion (idOf st s))
  let errOut : List Output :=
    if k < st.ledger.length then [Output.logError "zmq send"] else []
  ({ st with ledger := [], sent := st.sent ++ sentNow }, outs ++ errOut)

/-- Fan-out of a new item to one worker: the body of the loop in
`on_generator_pollin` (lines 174-190).  `serial` is the new item's
serial and `id` its ID. -/
def intakeOne (serial id : Nat) (payload : String) (st : DState) (k : String) :
    DState × List Output :=
  match mapLookup k st.workers with
  | none => (st, [])
  | some w =>
    if w.wants_item id then
      let dropped := if w.queue_policy = .PrebufferOne then w.waiting_items else []
      let w1 := if w.queue_policy = .PrebufferOne then { w with waiting_items := [] } else w
      let st1 := { st with workers := mapUpdate k w1 st.workers }
      let st2 := releaseList st1 dropped
      if w1.outstanding_items = [] then
        ({ st2 with workers :=
            mapUpdate k { w1 with outstanding_items := w1.outstanding_items ++ [serial] } st2.workers },
         [Output.workItem k id payload])
      else if w.queue_policy ≠ .Skip then
        ({ st2 with workers :=
            mapUpdate k { w1 with waiting_items := w1.waiting_items ++ [serial] } st2.workers },
         [])
      else (st2, [])
    else (st, [])

/-- The `for (auto& [identity, w] : workers_)` loop, iterating the keys
in map order. -/
def intakeLoop (serial id : Nat) (payload : String) :
    DState → List String → DState × List Output
  | st, [] => (st, [])
  | st, k :: ks =>
    let p1 := intakeOne serial id payload st k
    let p2 := intakeLoop serial id payload p1.1 ks
    (p2.1, p1.2 ++ p2.2)

/-- `ItemDistributor::on_generator_pollin` (lines 170-195): construct the
item, fan it out, release the handler's own reference (`new_item =
nullptr`, line 191), then drain the ledger. -/
def on_generator_pollin (st : DState) (id : Nat) (payload : String) :
    DState × List Output :=
  let serial := st.created.length
  let st0 := { st with created := st.created ++ [(id, payload)] }
  let p := intakeLoop serial id payload st0 (st0.workers.map Prod.fst)
  let st2 := releaseList p.1 [serial]
  let q := send_pending_completions none st2
  (q.1, p.2 ++ q.2)

/-- REGISTER handling (lines 215-223): build a fresh record and store it
with `workers_[identity] = std::move(c)`.  If the identity already
exists, the old `Worker` is deleted, destroying its queues (outstanding
deque first: members are destroyed in reverse declaration order). -/
def handleRegister (st : DState) (identity : String)
    (stride offset : Nat) (pol : WorkerQueuePolicy) (name : String) : DState :=
  let fresh : Worker :=
    { stride := stride, offset := offset, queue_policy := pol, client_name := name }
  match mapLookup identity st.workers with
  | none => { st with workers := mapInsert identity fresh st.workers }
  | some old =>
    let st1 := { st with workers := mapUpdate identity fresh st.workers }
    releaseList st1 (old.outstanding_items ++ old.waiting_items)

/-- Remove the first element of the queue whose item ID is `id`
(`std::find_if` + `erase`, lines 233-237), returning the removed serial
and the remaining queue. -/
def eraseFirstIdMatch (st : DState) (id : Nat) :
    List Nat → Option (Nat × List Nat)
  | [] => none
  | s :: rest =>
    if idOf st s = id then some (s, rest)
    else (eraseFirstIdMatch st id rest).map (fun p => (p.1, s :: p.2))

/-- COMPLETE handling (lines 224-244): look the worker up with
`workers_.at` (throws on a missing identity), delete the first matching
outstanding entry (the erased `shared_ptr` reference is released there),
then promote the front waiting item, if any, and transmit it. -/
def handleComplete (st : DState) (identity : String) (id : Nat) :
    Except Err (DState × List Output) :=
  match mapLookup identity st.workers with
  | none => .error .unknownWorker
  | some c =>
    match eraseFirstIdMatch st id c.outstanding_items with
    | none => .error .assertOutstanding
    | some (removed, rest) =>
      let c1 := { c with outstanding_items := rest }
      let st1 := { st with workers := mapUpdate identity c1 st.workers }
      let st2 := releaseList st1 [removed]
      match c1.waiting_items with
      | [] => .ok (st2, [])
      | s :: ws =>
        let c2 := { c1 with waiting_items := ws,
                            outstanding_items := c1.outstanding_items ++ [s] }
        .ok ({ st2 with workers := mapUpdate identity c2 st2.workers },
             [Output.workItem identity (idOf st2 s) (payloadOf st2 s)])

/-- Disconnect-notification handling (lines 206-211): log, erase the
record — deleting the old `Worker` destroys its queues — and report an
unknown identity. -/
def handleDisconnect (st : DState) (identity : String) :
    DState × List Output :=
  match mapLookup identity st.workers with
  | none =>
    (st, [Output.logInfo "received disconnect notification",
          Output.logError "disconnect from unknown worker"])
  | some old =>
    let st1 := { st with workers := mapErase identity st.workers }
    (releaseList st1 (old.outstanding_items ++ old.waiting_items),
     [Output.logInfo "received disconnect notification"])

/-- `rfind`-style prefix test: does `s` start with the byte sequence of
`pre`?  (`message_string.rfind("...", 0) == 0`, lines 215 and 224.) -/
def startsWithChars : List Char → List Char → Bool
  | [], _ => true
  | _ :: _, [] => false
  | a :: as, b :: bs => if a.toNat = b.toNat then startsWithChars as bs else false

def strStarts (s pre : String) : Bool := startsWithChars pre.data s.data

/-- Space-separated tokenization as done by `std::stringstream`
extraction: runs of non-space bytes, separators skipped. -/
def wordsAux : List Char → List Char → List String
  | [], acc => if acc.isEmpty then [] else [String.mk acc.reverse]
  | c :: cs, acc =>
    if c.toNat = 32 then
      if acc.isEmpty then wordsAux cs []
      else String.mk acc.reverse :: wordsAux cs []
    else wordsAux cs (c :: acc)

def tokenize (s : String) : List String := wordsAux s.data []

/-- Decimal parse of one token (`operator>>` into an unsigned integer,
`std::stoull`): all characters must be digits. -/
def parseNatChars : List Char → Nat → Option Nat
  | [], acc => some acc
  | c :: cs, acc =>
    if 48 ≤ c.toNat ∧ c.toNat ≤ 57 then parseNatChars cs (acc * 10 + (c.toNat - 48))
    else none

def strToNat? (s : String) : Option Nat :=
  match s.data with
  | [] => none
  | cs => parseNatChars cs 0

/-- Modelled from the spec: stream extraction for `WorkerQueuePolicy` is
declared in `ItemWorkerProtocol.hpp`, which is not among the sources;
spec section 4.1 renders the policy as one of the tokens `Async`,
`PrebufferOne`, `Skip`, with strict parsing. -/
def parsePolicy : String → Option WorkerQueuePolicy
  | "Async" => some WorkerQueuePolicy.Async
  | "PrebufferOne" => some WorkerQueuePolicy.PrebufferOne
  | "Skip" => some WorkerQueuePolicy.Skip
  | _ => none

/-- `s >> command >> stride >> offset >> queue_policy >> client_name`
(lines 218-221); `none` models `s.fail()`. -/
def parseRegisterBody (body : String) :
    Option (Nat × Nat × WorkerQueuePolicy × String) :=
  match tokenize body with
  | _ :: stok :: otok :: ptok :: ntok :: _ =>
    match strToNat? stok, strToNat? otok, parsePolicy ptok with
    | some stride, some offset, some pol => some (stride, offset, pol, ntok)
    | _, _, _ => none
  | _ => none

/-- `s >> command >> id` (lines 227-230); `none` models `s.fail()`. -/
def parseCompleteBody (body : String) : Option Nat :=
  match tokenize body with
  | _ :: idtok :: _ => strToNat? idtok
  | _ => none

/-- `ItemDistributor::on_worker_pollin` (lines 198-248).  `parts` is the
multipart message as delivered by the ROUTER socket: the peer identity,
the empty delimiter, then the body frames.  The code takes the identity
from `message.peekstr(1)` — the empty delimiter frame — and the command
string from `message.peekstr(3)`, one frame past the first body part. -/
def on_worker_pollin (st : DState) (parts : List String) :
    Except Err (DState × List Output) :=
  match parts with
  | p0 :: p1 :: rest =>
    if p0 = "" then .error .assertFormat
    else if p1 ≠ "" then .error .assertFormat
    else
      let identity := p1
      if rest.isEmpty then
        let p := handleDisconnect st identity
        let q := send_pending_completions none p.1
        .ok (q.1, p.2 ++ q.2)
      else
        match (p0 :: p1 :: rest).get? 3 with
        | none => .error .peekOutOfRange
        | some message_string =>
          if strStarts message_string "REGISTER " then
            match parseRegisterBody message_string with
            | none => .error .assertParse
            | some (stride, offset, pol, name) =>
              let st1 := handleRegister st identity stride offset pol name
              .ok (send_pending_completions none st1)
          else if strStarts message_string "COMPLETE " then
            match mapLookup identity st.workers with
            | none => .error .unknownWorker
            | some _ =>
              match parseCompleteBody message_string with
              | none => .error .assertParse
              | some id =>
                match handleComplete st identity id with
                | .error e => .error e
                | .ok (st1, outs1) =>
                  let q := send_pending_completions none st1
                  .ok (q.1, outs1 ++ q.2)
          else
            .ok (send_pending_completions none st)
  | _ => .error .assertFormat

/-- The heartbeat sweep `ItemDistributor::send_heartbeat` (lines
133-141): every worker with an empty `outstanding_items` is sent a
HEARTBEAT frame; `next_heartbeat_time` is neither consulted nor
advanced (the timing is a TODO in the source). -/
def send_heartbeat (st : DState) : List Output :=
  st.workers.filterMap
    (fun kw => if kw.2.outstanding_items.isEmpty then some (Output.heartbeat kw.1) else none)

/-- Events driving the dispatcher core, with the worker identity and the
parsed command fields abstracted out of the wire envelope. -/
inductive CoreEvent
  | newItem (id : Nat) (payload : String)
  | register (identity : String) (stride offset : Nat)
      (pol : WorkerQueuePolicy) (name : String)
  | complete (identity : String) (id : Nat)
  | disconnect (identity : String)
  | tick
deriving DecidableEq, Repr

/-- One dispatcher-core transition; every worker-channel handler ends
with a ledger drain, the periodic tick only sweeps heartbeats. -/
def coreStep (st : DState) : CoreEvent → Except Err (DState × List Output)
  | .newItem id payload => .ok (on_generator_pollin st id payload)
  | .register identity stride offset pol name =>
    .ok (send_pending_completions none (handleRegister st identity stride offset pol name))
  | .complete identity id =>
    match handleComplete st identity id with
    | .error e => .error e
    | .ok (st1, outs1) =>
      let q := send_pending_completions none st1
      .ok (q.1, outs1 ++ q.2)
  | .disconnect identity =>
    let p := handleDisconnect st identity
    let q := send_pending_completions none p.1
    .ok (q.1, p.2 ++ q.2)
  | .tick => .ok (st, send_heartbeat st)

def initState : DState := {}

/-- Run the dispatcher core over an event sequence, accumulating every
transmitted frame and log line. -/
def coreRun (st : DState) : List CoreEvent → Except Err (DState × List Output)
  | [] => .ok (st, [])
  | e :: es =>
    match coreStep st e with
    | .error err => .error err
    | .ok (st1, outs1) =>
      match coreRun st1 es with
      | .error err => .error err
      | .ok (st2, outs2) => .ok (st2, outs1 ++ outs2)

/-- The IDs handed back to the producer among a list of outputs. -/
def completionIds (outs : List Output) : List Nat :=
  outs.filterMap (fun o => match o with | Output.completion i => some i | _ => none)

/-- The IDs of the items received from the producer in a core event
sequence. -/
def producedIds (evs : List CoreEvent) : List Nat :=
  evs.filterMap (fun e => match e with | CoreEvent.newItem i _ => some i | _ => none)

/-- Identities addressed by the WORK_ITEM frames among the outputs. -/
def workItemIdentities (outs : List Output) : List String :=
  outs.filterMap (fun o => match o with | Output.workItem k _ _ => some k | _ => none)

/-- Decidable form of "no queue holds any item reference any more". -/
def allQueuesEmpty (st : DState) : Bool :=
  st.workers.all (fun kw => kw.2.waiting_items.isEmpty && kw.2.outstanding_items.isEmpty)

/-! ### Association-list lemmas for the worker table -/

/-- The association list is strictly sorted by key, as a `std::map` is. -/
def sortedW (ws : List (String × Worker)) : Prop :=
  ws.Pairwise (fun a b => strLt a.1 b.1 = true)

/-- How often serial `s` has been written to the completion ledger so
far (still pending, or already drained to the producer). -/
def cnt (st : DState) (s : Nat) : Nat :=
  st.ledger.count s + st.sent.count s

/-- Accounting state of one serial: an existing item is either still
referenced and not yet completed, or unreferenced and completed exactly
once; serial numbers not yet used occur nowhere. -/
def goodSerial (st : DState) (s : Nat) : Prop :=
  (s < st.created.length → cnt st s + min (occAll st.workers s) 1 = 1)
  ∧ (st.created.length ≤ s → cnt st s = 0 ∧ occAll st.workers s = 0)

/-- Invariant holding while `on_generator_pollin` owns its reference to
the freshly created item `t`: the serial exists, is not yet completed,
and every other serial is properly accounted. -/
def midInv (t : Nat) (st : DState) : Prop :=
  t < st.created.length ∧ cnt st t = 0 ∧ ∀ s, s ≠ t → goodSerial st s

/-- Every waiting item matches its worker's predicate. -/
def waitMatch (st : DState) : Prop :=
  ∀ k w, mapLookup k st.workers = some w →
    ∀ s ∈ w.waiting_items, idOf st s % w.stride = w.offset

/-- PrebufferOne workers buffer at most one waiting item. -/
def prebufLen (st : DState) : Prop :=
  ∀ k w, mapLookup k st.workers = some w →
    w.queue_policy = WorkerQueuePolicy.PrebufferOne → w.waiting_items.length ≤ 1

/-- All state-shaped invariants that hold between events. -/
def InvP (st : DState) : Prop :=
  sortedW st.workers ∧ (∀ s, goodSerial st s) ∧ waitMatch st ∧ prebufLen st

/-- Between events the ledger is additionally drained. -/
def DInv (st : DState) : Prop := InvP st ∧ st.ledger = []

/-- The items received so far, in order. -/
def createdOf (evs : List CoreEvent) : List (Nat × String) :=
  evs.filterMap (fun e => match e with
    | CoreEvent.newItem id p => some (id, p)
    | _ => none)

/-- The item records appended to the table by one event. -/
def eventCreated : CoreEvent → List (Nat × String)
  | CoreEvent.newItem id p => [(id, p)]
  | _ => []

/-- A concrete event sequence for the conservation claim: one worker
registers, one item is produced, completed, and the worker leaves. -/
def c1evs : List CoreEvent :=
  [CoreEvent.register "w" 1 0 WorkerQueuePolicy.Async "n",
   CoreEvent.newItem 5 "",
   CoreEvent.complete "w" 5,
   CoreEvent.disconnect "w"]

def c1st : DState := { created := [(5, "")], workers := [], ledger := [], sent := [0] }

def c1outs : List Output :=
  [Output.workItem "w" 5 "", Output.completion 5,
   Output.logInfo "received disconnect notification"]

def c2evs : List CoreEvent := [CoreEvent.register "a" 2 1 WorkerQueuePolicy.Async "n"]

def c2w : Worker :=
  { stride := 2, offset := 1, queue_policy := WorkerQueuePolicy.Async, client_name := "n" }

def c2st : DState := { workers := [("a", c2w)] }

def c2st' : DState :=
  { created := [(3, "x")],
    workers := [("a", { c2w with outstanding_items := [0] })] }

def c3evs : List CoreEvent :=
  [CoreEvent.register "b" 1 0 WorkerQueuePolicy.Async "nb",
   CoreEvent.register "a" 1 0 WorkerQueuePolicy.Async "na",
   CoreEvent.newItem 0 ""]

def c3wa : Worker :=
  { stride := 1, offset := 0, queue_policy := WorkerQueuePolicy.Async,
    client_name := "na", outstanding_items := [0] }

def c3wb : Worker :=
  { stride := 1, offset := 0, queue_policy := WorkerQueuePolicy.Async,
    client_name := "nb", outstanding_items := [0] }

def c3st : DState := { created := [(0, "")], workers := [("a", c3wa), ("b", c3wb)] }

def c3regs : List CoreEvent :=
  [CoreEvent.register "b" 1 0 WorkerQueuePolicy.Async "nb",
   CoreEvent.register "a" 1 0 WorkerQueuePolicy.Async "na"]

def c3regSt : DState :=
  { workers :=
      [("a", { stride := 1, offset := 0, queue_policy := WorkerQueuePolicy.Async,
               client_name := "na" }),
       ("b", { stride := 1, offset := 0, queue_policy := WorkerQueuePolicy.Async,
               client_name := "nb" })] }

def c5st : DState := { created := [(7, "p")], workers := [], ledger := [0], sent := [] }

def c6evs : List CoreEvent :=
  [CoreEvent.register "a" 2 1 WorkerQueuePolicy.PrebufferOne "n",
   CoreEvent.newItem 1 "p", CoreEvent.newItem 3 "q", CoreEvent.newItem 5 "r"]

def c6dummy : Worker :=
  { stride := 0, offset := 0, queue_policy := WorkerQueuePolicy.Skip,
    client_name := "", waiting_items := [], outstanding_items := [],
    next_heartbeat_time := 0 }

def c6st : DState := ((coreRun initState c6evs).toOption.getD (initState, [])).1

def c6outs : List Output := ((coreRun initState c6evs).toOption.getD (initState, [])).2

def c6w : Worker := (mapLookup "a" c6st.workers).getD c6dummy

def c7w : Worker :=
  { stride := 1, offset := 0, queue_policy := WorkerQueuePolicy.Async,
    client_name := "n", waiting_items := [2], outstanding_items := [0, 1],
    next_heartbeat_time := 0 }

def c7st : DState :=
  { created := [(10, "a"), (11, "b"), (12, "c")], workers := [("w", c7w)],
    ledger := [], sent := [] }

def c9w : Worker :=
  { stride := 1, offset := 0, queue_policy := WorkerQueuePolicy.Async,
    client_name := "n", waiting_items := [], outstanding_items := [],
    next_heartbeat_time := 1000 }

def c9st : DState :=
  { created := [], workers := [("w", c9w)], ledger := [], sent := [] }

def c10st : DState := { created := [(7, "p")], workers := [], ledger := [0], sent := [] }

theorem occAll_nil (s : Nat) : occAll [] s = 0 := rfl

theorem occAll_cons (kw : String × Worker) (tl : List (String × Worker)) (s : Nat) :
    occAll (kw :: tl) s = kw.2.occ s + occAll tl s := by
  simp [occAll]

theorem charListLt_irrefl (l : List Char) : charListLt l l = false := by
  induction l with
  | nil => rfl
  | cons a as ih => simp [charListLt, Nat.lt_irrefl, ih]

theorem strLt_irrefl (a : String) : strLt a a = false := charListLt_irrefl a.data

theorem strLt_ne (a b : String) (h : strLt a b = true) : a ≠ b := by
  intro hc
  subst hc
  rw [strLt_irrefl] at h
  exact Bool.false_ne_true h

theorem charListLt_trans (a : List Char) : ∀ b c : List Char,
    charListLt a b = true → charListLt b c = true → charListLt a c = true := by
  induction a with
  | nil =>
    intro b c h1 h2
    cases b with
    | nil => simp [charListLt] at h1
    | cons y ys =>
      cases c with
      | nil => simp [charListLt] at h2
      | cons z zs => rfl
  | cons x xs ih =>
    intro b c h1 h2
    cases b with
    | nil => simp [charListLt] at h1
    | cons y ys =>
      cases c with
      | nil => simp [charListLt] at h2
      | cons z zs =>
        unfold charListLt at h1 h2 ⊢
        by_cases hxy : x.toNat < y.toNat
        · by_cases hyz : y.toNat < z.toNat
          · simp [Nat.lt_trans hxy hyz]
          · by_cases hzy : z.toNat < y.toNat
            · simp [hyz, hzy] at h2
            · have hxz : x.toNat < z.toNat := by omega
              simp [hxz]
        · by_cases hyx : y.toNat < x.toNat
          · simp [hxy, hyx] at h1
          · simp [hxy, hyx] at h1
            by_cases hyz : y.toNat < z.toNat
            · have hxz : x.toNat < z.toNat := by omega
              simp [hxz]
            · by_cases hzy : z.toNat < y.toNat
              · simp [hyz, hzy] at h2
              · simp [hyz, hzy] at h2
                have hxz1 : ¬x.toNat < z.toNat := by omega
                have hzx1 : ¬z.toNat < x.toNat := by omega
                simp [hxz1, hzx1]
                exact ih ys zs h1 h2

theorem strLt_trans (a b c : String) (h1 : strLt a b = true)
    (h2 : strLt b c = true) : strLt a c = true :=
  charListLt_trans a.data b.data c.data h1 h2

theorem char_toNat_inj (a b : Char) (h : a.toNat = b.toNat) : a = b := by
  apply Char.eq_of_val_eq
  have h2 : a.val.toNat = b.val.toNat := h
  exact UInt32.eq_of_val_eq (Fin.ext h2)

theorem charListLt_connex (a : List Char) : ∀ b : List Char,
    charListLt a b = false → charListLt b a = false → a = b := by
  induction a with
  | nil =>
    intro b h1 h2
    cases b with
    | nil => rfl
    | cons y ys => simp [charListLt] at h1
  | cons x xs ih =>
    intro b h1 h2
    cases b with
    | nil => simp [charListLt] at h2
    | cons y ys =>
      unfold charListLt at h1 h2
      by_cases hxy : x.toNat < y.toNat
      · simp [hxy] at h1
      · by_cases hyx : y.toNat < x.toNat
        · simp [hyx] at h2
        · simp [hxy, hyx] at h1 h2
          have hxeq : x = y := char_toNat_inj x y (by omega)
          have hteq : xs = ys := ih ys h1 h2
          rw [hxeq, hteq]

theorem strLt_of_not_of_ne (a b : String) (h : ¬strLt a b = true)
    (hne : a ≠ b) : strLt b a = true := by
  rw [Bool.not_eq_true] at h
  by_cases h2 : strLt b a = true
  · exact h2
  · rw [Bool.not_eq_true] at h2
    have hdata : a.data = b.data := charListLt_connex a.data b.data h h2
    have : a = b := by
      cases a
      cases b
      exact congrArg String.mk hdata
    exact absurd this hne

theorem mapUpdate_map_fst (k : String) (w : Worker) (ws : List (String × Worker)) :
    (mapUpdate k w ws).map Prod.fst = ws.map Prod.fst := by
  induction ws with
  | nil => rfl
  | cons hd tl ih =>
    obtain ⟨k', w'⟩ := hd
    by_cases h : k = k'
    · simp [mapUpdate, h]
    · simp [mapUpdate, h, ih]

theorem mapLookup_mapUpdate_self (k : String) (w w0 : Worker)
    (ws : List (String × Worker)) (h : mapLookup k ws = some w0) :
    mapLookup k (mapUpdate k w ws) = some w := by
  induction ws with
  | nil => simp [mapLookup] at h
  | cons hd tl ih =>
    obtain ⟨k', w'⟩ := hd
    by_cases hk : k = k'
    · simp [mapUpdate, mapLookup, hk]
    · simp [mapLookup, hk] at h
      simp [mapUpdate, mapLookup, hk, ih h]

theorem mapLookup_mapUpdate_ne (k k' : String) (w : Worker)
    (ws : List (String × Worker)) (h : k' ≠ k) :
    mapLookup k' (mapUpdate k w ws) = mapLookup k' ws := by
  induction ws with
  | nil => rfl
  | cons hd tl ih =>
    obtain ⟨ka, wa⟩ := hd
    by_cases hk : k = ka
    · subst hk
      simp [mapUpdate, mapLookup, h]
    · simp only [mapUpdate, if_neg hk]
      by_cases hk' : k' = ka
      · simp [mapLookup, hk']
      · simp [mapLookup, hk', ih]

theorem mapUpdate_of_lookup_none (k : String) (w : Worker)
    (ws : List (String × Worker)) (h : mapLookup k ws = none) :
    mapUpdate k w ws = ws := by
  induction ws with
  | nil => rfl
  | cons hd tl ih =>
    obtain ⟨k', w'⟩ := hd
    by_cases hk : k = k'
    · simp [mapLookup, hk] at h
    · simp [mapLookup, hk] at h
      simp [mapUpdate, hk, ih h]

theorem occAll_mapUpdate (k : String) (w w0 : Worker)
    (ws : List (String × Worker)) (h : mapLookup k ws = some w0) (s : Nat) :
    occAll (mapUpdate k w ws) s + w0.occ s = occAll ws s + w.occ s := by
  induction ws with
  | nil => simp [mapLookup] at h
  | cons hd tl ih =>
    obtain ⟨k', w'⟩ := hd
    by_cases hk : k = k'
    · simp [mapLookup, hk] at h
      subst h
      simp [mapUpdate, hk, occAll_cons]
      omega
    · simp [mapLookup, hk] at h
      have := ih h
      simp [mapUpdate, hk, occAll_cons]
      omega

theorem mapErase_of_lookup_none (k : String)
    (ws : List (String × Worker)) (h : mapLookup k ws = none) :
    mapErase k ws = ws := by
  induction ws with
  | nil => rfl
  | cons hd tl ih =>
    obtain ⟨k', w'⟩ := hd
    by_cases hk : k = k'
    · simp [mapLookup, hk] at h
    · simp [mapLookup, hk] at h
      simp [mapErase, hk, ih h]

theorem occAll_mapErase (k : String) (w0 : Worker)
    (ws : List (String × Worker)) (h : mapLookup k ws = some w0) (s : Nat) :
    occAll (mapErase k ws) s + w0.occ s = occAll ws s := by
  induction ws with
  | nil => simp [mapLookup] at h
  | cons hd tl ih =>
    obtain ⟨k', w'⟩ := hd
    by_cases hk : k = k'
    · simp [mapLookup, hk] at h
      subst h
      simp [mapErase, hk, occAll_cons]
      omega
    · simp [mapLookup, hk] at h
      have := ih h
      simp [mapErase, hk, occAll_cons]
      omega

theorem mapLookup_mapErase_ne (k k' : String)
    (ws : List (String × Worker)) (h : k' ≠ k) :
    mapLookup k' (mapErase k ws) = mapLookup k' ws := by
  induction ws with
  | nil => rfl
  | cons hd tl ih =>
    obtain ⟨ka, wa⟩ := hd
    by_cases hk : k = ka
    · subst hk
      simp [mapErase, mapLookup, h]
    · simp only [mapErase, if_neg hk]
      by_cases hk' : k' = ka
      · simp [mapLookup, hk']
      · simp [mapLookup, hk', ih]

theorem mapLookup_mapInsert_self (k : String) (w : Worker)
    (ws : List (String × Worker)) :
    mapLookup k (mapInsert k w ws) = some w := by
  induction ws with
  | nil => simp [mapInsert, mapLookup]
  | cons hd tl ih =>
    obtain ⟨k', w'⟩ := hd
    by_cases hlt : strLt k k' = true
    · simp [mapInsert, hlt, mapLookup]
    · by_cases hk : k = k'
      · simp [mapInsert, hlt, hk, mapLookup, strLt_irrefl]
      · simp [mapInsert, hlt, hk, mapLookup, ih]

theorem mapLookup_mapInsert_ne (k k' : String) (w : Worker)
    (ws : List (String × Worker)) (h : k' ≠ k) :
    mapLookup k' (mapInsert k w ws) = mapLookup k' ws := by
  induction ws with
  | nil => simp [mapInsert, mapLookup, h]
  | cons hd tl ih =>
    obtain ⟨ka, wa⟩ := hd
    by_cases hlt : strLt k ka = true
    · simp [mapInsert, hlt, mapLookup, h]
    · by_cases hk : k = ka
      · subst hk
        simp [mapInsert, hlt, mapLookup, h, strLt_irrefl]
      · simp only [mapInsert, if_neg hlt, if_neg hk]
        by_cases hk' : k' = ka
        · simp [mapLookup, hk']
        · simp [mapLookup, hk', ih]

theorem occAll_mapInsert_of_lookup_none (k : String) (w : Worker)
    (ws : List (String × Worker)) (h : mapLookup k ws = none) (s : Nat) :
    occAll (mapInsert k w ws) s = occAll ws s + w.occ s := by
  induction ws with
  | nil => simp [mapInsert, occAll_cons, occAll_nil]
  | cons hd tl ih =>
    obtain ⟨k', w'⟩ := hd
    by_cases hk : k = k'
    · simp [mapLookup, hk] at h
    · simp [mapLookup, hk] at h
      by_cases hlt : strLt k k' = true
      · simp [mapInsert, hlt, occAll_cons]
        omega
      · simp [mapInsert, hlt, hk, occAll_cons, ih h]
        omega

theorem occ_le_occAll (k : String) (w : Worker)
    (ws : List (String × Worker)) (h : mapLookup k ws = some w) (s : Nat) :
    w.occ s ≤ occAll ws s := by
  induction ws with
  | nil => simp [mapLookup] at h
  | cons hd tl ih =>
    obtain ⟨k', w'⟩ := hd
    by_cases hk : k = k'
    · simp [mapLookup, hk] at h
      subst h
      simp only [occAll_cons]
      omega
    · simp [mapLookup, hk] at h
      have := ih h
      simp only [occAll_cons]
      omega

/-! ### Release and drain lemmas -/

theorem releaseOne_workers (st : DState) (s : Nat) (rem : List Nat) :
    (releaseOne st s rem).workers = st.workers := by
  unfold releaseOne
  split <;> rfl

theorem releaseOne_created (st : DState) (s : Nat) (rem : List Nat) :
    (releaseOne st s rem).created = st.created := by
  unfold releaseOne
  split <;> rfl

theorem releaseOne_sent (st : DState) (s : Nat) (rem : List Nat) :
    (releaseOne st s rem).sent = st.sent := by
  unfold releaseOne
  split <;> rfl

theorem releaseList_workers (l : List Nat) (st : DState) :
    (releaseList st l).workers = st.workers := by
  induction l generalizing st with
  | nil => rfl
  | cons a rest ih => rw [releaseList, ih, releaseOne_workers]

theorem releaseList_created (l : List Nat) (st : DState) :
    (releaseList st l).created = st.created := by
  induction l generalizing st with
  | nil => rfl
  | cons a rest ih => rw [releaseList, ih, releaseOne_created]

theorem releaseList_sent (l : List Nat) (st : DState) :
    (releaseList st l).sent = st.sent := by
  induction l generalizing st with
  | nil => rfl
  | cons a rest ih => rw [releaseList, ih, releaseOne_sent]

/-- How one batch destruction changes the ledger: a serial is appended
(exactly once) iff it occurs in the batch and no worker queue holds it
any more. -/
theorem count_ledger_releaseList (l : List Nat) (st : DState) (s : Nat) :
    (releaseList st l).ledger.count s =
      st.ledger.count s + (if occAll st.workers s = 0 ∧ s ∈ l then 1 else 0) := by
  induction l generalizing st with
  | nil => simp [releaseList]
  | cons a rest ih =>
    rw [releaseList, ih, releaseOne_workers]
    unfold releaseOne
    by_cases hc : occAll st.workers a + rest.count a = 0
    · rw [if_pos hc]
      by_cases hs : s = a
      · subst hs
        have hocc : occAll st.workers s = 0 := by omega
        have hnotin : s ∉ rest := by
          intro hmem
          have := List.count_pos_iff.mpr hmem
          omega
        simp [hocc, hnotin, List.count_append]
      · have hsa : a ≠ s := fun h => hs h.symm
        simp only [List.count_append, List.count_cons, List.count_nil, List.mem_cons]
        by_cases hocc : occAll st.workers s = 0 <;>
          by_cases hmem : s ∈ rest <;>
            simp [hocc, hmem, hs, hsa]
    · rw [if_neg hc]
      by_cases hs : s = a
      · subst hs
        by_cases hocc : occAll st.workers s = 0
        · have hmem : s ∈ rest := by
            rw [← List.count_pos_iff]
            omega
          simp [hocc, hmem]
        · simp [hocc]
      · simp only [List.mem_cons]
        by_cases hocc : occAll st.workers s = 0 <;>
          by_cases hmem : s ∈ rest <;>
            simp [hocc, hmem, hs]

/-- The successful drain: every pending ID goes out, the ledger empties. -/
theorem send_pending_completions_none (st : DState) :
    send_pending_completions none st =
      ({ st with ledger := [], sent := st.sent ++ st.ledger },
       st.ledger.map (fun s => Output.completion (idOf st s))) := by
  simp [send_pending_completions]

/-! ### Sortedness of the worker table (`std::map` key order) -/

theorem sortedW_mapUpdate (k : String) (w : Worker)
    (ws : List (String × Worker)) (h : sortedW ws) :
    sortedW (mapUpdate k w ws) := by
  induction ws with
  | nil => exact h
  | cons hd tl ih =>
    obtain ⟨k', w'⟩ := hd
    rw [sortedW, List.pairwise_cons] at h
    obtain ⟨hrel, htl⟩ := h
    by_cases hk : k = k'
    · subst hk
      rw [mapUpdate, if_pos rfl, sortedW, List.pairwise_cons]
      exact ⟨hrel, htl⟩
    · rw [mapUpdate, if_neg hk, sortedW, List.pairwise_cons]
      refine ⟨?_, ih htl⟩
      intro b hb
      have hb1 : b.1 ∈ (mapUpdate k w tl).map Prod.fst := List.mem_map_of_mem _ hb
      rw [mapUpdate_map_fst] at hb1
      obtain ⟨c, hc, hceq⟩ := List.mem_map.mp hb1
      rw [← hceq]
      exact hrel c hc

theorem mapErase_sublist (k : String) (ws : List (String × Worker)) :
    (mapErase k ws).Sublist ws := by
  induction ws with
  | nil => exact List.Sublist.refl _
  | cons hd tl ih =>
    obtain ⟨k', w'⟩ := hd
    by_cases hk : k = k'
    · rw [mapErase, if_pos hk]
      exact List.sublist_cons_self _ _
    · rw [mapErase, if_neg hk]
      exact List.Sublist.cons₂ _ ih

theorem sortedW_mapErase (k : String)
    (ws : List (String × Worker)) (h : sortedW ws) :
    sortedW (mapErase k ws) :=
  List.Pairwise.sublist (mapErase_sublist k ws) h

theorem mem_mapInsert (k : String) (w : Worker) (a : String × Worker)
    (ws : List (String × Worker)) (h : a ∈ mapInsert k w ws) :
    a = (k, w) ∨ a ∈ ws := by
  induction ws with
  | nil =>
    rw [mapInsert] at h
    rcases List.mem_singleton.mp h with h1
    exact Or.inl h1
  | cons hd tl ih =>
    obtain ⟨k', w'⟩ := hd
    by_cases hlt : strLt k k' = true
    · rw [mapInsert, if_pos hlt] at h
      rcases List.mem_cons.mp h with h1 | h2
      · exact Or.inl h1
      · exact Or.inr h2
    · by_cases hk : k = k'
      · rw [mapInsert, if_neg hlt, if_pos hk] at h
        rcases List.mem_cons.mp h with h1 | h2
        · exact Or.inl h1
        · exact Or.inr (List.mem_cons_of_mem _ h2)
      · rw [mapInsert, if_neg hlt, if_neg hk] at h
        rcases List.mem_cons.mp h with h1 | h2
        · exact Or.inr (h1 ▸ List.mem_cons_self _ _)
        · rcases ih h2 with h3 | h4
          · exact Or.inl h3
          · exact Or.inr (List.mem_cons_of_mem _ h4)

theorem sortedW_mapInsert (k : String) (w : Worker)
    (ws : List (String × Worker)) (h : sortedW ws) :
    sortedW (mapInsert k w ws) := by
  induction ws with
  | nil =>
    rw [mapInsert, sortedW]
    exact List.pairwise_singleton _ _
  | cons hd tl ih =>
    obtain ⟨k', w'⟩ := hd
    rw [sortedW, List.pairwise_cons] at h
    obtain ⟨hrel, htl⟩ := h
    by_cases hlt : strLt k k' = true
    · rw [mapInsert, if_pos hlt, sortedW, List.pairwise_cons]
      constructor
      · intro b hb
        rcases List.mem_cons.mp hb with h1 | h2
        · rw [h1]
          exact hlt
        · exact strLt_trans _ _ _ hlt (hrel b h2)
      · rw [sortedW, List.pairwise_cons] at *
        exact ⟨hrel, htl⟩
    · by_cases hk : k = k'
      · subst hk
        rw [mapInsert, if_neg hlt, if_pos rfl, sortedW, List.pairwise_cons]
        exact ⟨hrel, htl⟩
      · have hgt : strLt k' k = true := strLt_of_not_of_ne k k' hlt hk
        rw [mapInsert, if_neg hlt, if_neg hk, sortedW, List.pairwise_cons]
        refine ⟨?_, ih htl⟩
        intro b hb
        rcases mem_mapInsert k w b _ hb with h1 | h2
        · rw [h1]
          exact hgt
        · exact hrel b h2

/-! ### The completion-accounting invariant -/

/-- One destruction batch `dropped`, removed beforehand from the queues
(`st` → `st1`), keeps a serial's accounting intact. -/
theorem goodSerial_dropRelease (st st1 : DState) (dropped : List Nat) (s : Nat)
    (hco : st1.created = st.created) (hle : st1.ledger = st.ledger)
    (hse : st1.sent = st.sent)
    (hocc : occAll st1.workers s + dropped.count s = occAll st.workers s)
    (hg : goodSerial st s) :
    goodSerial (releaseList st1 dropped) s := by
  obtain ⟨hlt, hge⟩ := hg
  have hwork : (releaseList st1 dropped).workers = st1.workers :=
    releaseList_workers _ _
  have hcre : (releaseList st1 dropped).created = st.created := by
    rw [releaseList_created, hco]
  have hsent : (releaseList st1 dropped).sent = st.sent := by
    rw [releaseList_sent, hse]
  have hcount := count_ledger_releaseList dropped st1 s
  constructor
  · intro h
    rw [hcre] at h
    have h1 := hlt h
    unfold cnt at h1 ⊢
    rw [hwork, hcount, hle, hsent]
    by_cases ho : occAll st.workers s = 0
    · have hd0 : dropped.count s = 0 := by omega
      have hnm : s ∉ dropped := by
        intro hm
        have := List.count_pos_iff.mpr hm
        omega
      have ho1 : occAll st1.workers s = 0 := by omega
      simp only [ho1, hnm, and_false, if_false]
      rw [ho] at h1
      omega
    · by_cases ho1 : occAll st1.workers s = 0
      · have hd : dropped.count s > 0 := by omega
        have hm : s ∈ dropped := List.count_pos_iff.mp hd
        simp only [ho1, hm, and_self, if_true]
        have : min (occAll st.workers s) 1 = 1 := by omega
        omega
      · simp only [ho1, false_and, if_false]
        have : min (occAll st.workers s) 1 = 1 := by omega
        have : min (occAll st1.workers s) 1 = 1 := by omega
        omega
  · intro h
    rw [hcre] at h
    obtain ⟨hc0, ho0⟩ := hge h
    have hd0 : dropped.count s = 0 := by omega
    have hnm : s ∉ dropped := by
      intro hm
      have := List.count_pos_iff.mpr hm
      omega
    have ho1 : occAll st1.workers s = 0 := by omega
    constructor
    · unfold cnt at hc0 ⊢
      rw [hcount, hle, hsent]
      simp only [hnm, and_false, if_false]
      omega
    · rw [hwork]
      exact ho1

/-- Modifying queues without destroying any reference (the promotion of
a waiting item, or the enqueueing of the freshly created item) keeps
other serials' accounting intact. -/
theorem goodSerial_congr (st st1 : DState) (s : Nat)
    (hco : st1.created = st.created) (hle : st1.ledger = st.ledger)
    (hse : st1.sent = st.sent)
    (hocc : occAll st1.workers s = occAll st.workers s)
    (hg : goodSerial st s) :
    goodSerial st1 s := by
  obtain ⟨hlt, hge⟩ := hg
  constructor
  · intro h
    rw [hco] at h
    unfold cnt
    rw [hle, hse, hocc]
    exact hlt h
  · intro h
    rw [hco] at h
    obtain ⟨h1, h2⟩ := hge h
    unfold cnt
    rw [hle, hse, hocc]
    exact ⟨h1, h2⟩

/-! ### Structure of the fan-out loop -/

theorem intakeOne_of_lookup_none (t id : Nat) (p : String) (st : DState) (k : String)
    (hl : mapLookup k st.workers = none) :
    intakeOne t id p st k = (st, []) := by
  unfold intakeOne
  rw [hl]

theorem intakeOne_of_nowant (t id : Nat) (p : String) (st : DState) (k : String)
    (w : Worker) (hl : mapLookup k st.workers = some w)
    (hw : w.wants_item id = false) :
    intakeOne t id p st k = (st, []) := by
  unfold intakeOne
  rw [hl]
  simp [hw]

theorem intakeOne_created (t id : Nat) (p : String) (st : DState) (k : String) :
    (intakeOne t id p st k).1.created = st.created := by
  unfold intakeOne
  cases hl : mapLookup k st.workers with
  | none => rfl
  | some w =>
    by_cases hw : w.wants_item id = true
    · simp only [hw, if_true]
      split <;> try split
      all_goals try split
      all_goals simp [releaseList_created]
    · simp [hw]

theorem intakeOne_sent (t id : Nat) (p : String) (st : DState) (k : String) :
    (intakeOne t id p st k).1.sent = st.sent := by
  unfold intakeOne
  cases hl : mapLookup k st.workers with
  | none => rfl
  | some w =>
    by_cases hw : w.wants_item id = true
    · simp only [hw, if_true]
      split <;> try split
      all_goals try split
      all_goals simp [releaseList_sent]
    · simp [hw]

theorem intakeOne_lookup_ne (t id : Nat) (p : String) (st : DState) (k k' : String)
    (hne : k' ≠ k) :
    mapLookup k' (intakeOne t id p st k).1.workers = mapLookup k' st.workers := by
  unfold intakeOne
  cases hl : mapLookup k st.workers with
  | none => rfl
  | some w =>
    by_cases hw : w.wants_item id = true
    · simp only [hw, if_true]
      split <;> try split
      all_goals try split
      all_goals simp only [releaseList_workers]
      all_goals repeat rw [mapLookup_mapUpdate_ne _ _ _ _ hne]
    · simp [hw]

theorem mapUpdate_self_eq (k : String) (w : Worker)
    (ws : List (String × Worker)) (h : mapLookup k ws = some w) :
    mapUpdate k w ws = ws := by
  induction ws with
  | nil => rfl
  | cons hd tl ih =>
    obtain ⟨k', w'⟩ := hd
    by_cases hk : k = k'
    · simp [mapLookup, hk] at h
      subst hk
      subst h
      simp [mapUpdate]
    · simp [mapLookup, hk] at h
      simp [mapUpdate, hk, ih h]

theorem count_append_single_ne (l : List Nat) (s t : Nat) (h : s ≠ t) :
    (l ++ [t]).count s = l.count s := by
  simp [List.count_append, List.count_cons, List.count_nil]
  omega

theorem midInv_update (t : Nat) (st : DState) (k : String) (w0 w2 : Worker)
    (hl : mapLookup k st.workers = some w0)
    (hocc : ∀ s, s ≠ t → w2.occ s = w0.occ s)
    (h : midInv t st) :
    midInv t { st with workers := mapUpdate k w2 st.workers } := by
  obtain ⟨h1, h2, h3⟩ := h
  refine ⟨h1, h2, ?_⟩
  intro s hs
  refine goodSerial_congr st _ s rfl rfl rfl ?_ (h3 s hs)
  have := occAll_mapUpdate k w2 w0 st.workers hl s
  have := hocc s hs
  simp only
  omega

theorem midInv_dropRelease (t : Nat) (st st1 : DState) (dropped : List Nat)
    (hco : st1.created = st.created) (hle : st1.ledger = st.ledger)
    (hse : st1.sent = st.sent)
    (hocc : ∀ s, occAll st1.workers s + dropped.count s = occAll st.workers s)
    (hnd : dropped.count t = 0)
    (h : midInv t st) :
    midInv t (releaseList st1 dropped) := by
  obtain ⟨h1, h2, h3⟩ := h
  refine ⟨?_, ?_, ?_⟩
  · rw [releaseList_created, hco]
    exact h1
  · have hnm : t ∉ dropped := by
      intro hm
      have := List.count_pos_iff.mpr hm
      omega
    unfold cnt at h2 ⊢
    rw [count_ledger_releaseList, releaseList_sent, hle, hse]
    simp only [hnm, and_false, if_false]
    omega
  · intro s hs
    exact goodSerial_dropRelease st st1 dropped s hco hle hse (hocc s) (h3 s hs)

/-- Equation: matching worker with `PrebufferOne`, idle. -/
theorem intakeOne_eq_prebuffer_idle (t id : Nat) (p : String) (st : DState)
    (k : String) (w : Worker) (hl : mapLookup k st.workers = some w)
    (hw : w.wants_item id = true)
    (hpol : w.queue_policy = WorkerQueuePolicy.PrebufferOne)
    (hout : w.outstanding_items = []) :
    intakeOne t id p st k =
      (let wc : Worker := { w with waiting_items := [] }
       let st2 := releaseList ({ st with workers := mapUpdate k wc st.workers }) w.waiting_items
       let w2 : Worker := { wc with outstanding_items := wc.outstanding_items ++ [t] }
       ({ st2 with workers := mapUpdate k w2 st2.workers },
        [Output.workItem k id p])) := by
  simp [intakeOne, hl, hw, hpol, hout]

/-- Equation: matching worker with `PrebufferOne`, busy. -/
theorem intakeOne_eq_prebuffer_busy (t id : Nat) (p : String) (st : DState)
    (k : String) (w : Worker) (hl : mapLookup k st.workers = some w)
    (hw : w.wants_item id = true)
    (hpol : w.queue_policy = WorkerQueuePolicy.PrebufferOne)
    (hout : w.outstanding_items ≠ []) :
    intakeOne t id p st k =
      (let wc : Worker := { w with waiting_items := [] }
       let st2 := releaseList ({ st with workers := mapUpdate k wc st.workers }) w.waiting_items
       let w2 : Worker := { w with waiting_items := [t] }
       ({ st2 with workers := mapUpdate k w2 st2.workers }, [])) := by
  simp [intakeOne, hl, hw, hpol, hout]

/-- Equation: matching worker with `Async` or `Skip` policy, idle. -/
theorem intakeOne_eq_plain_idle (t id : Nat) (p : String) (st : DState)
    (k : String) (w : Worker) (hl : mapLookup k st.workers = some w)
    (hw : w.wants_item id = true)
    (hpol : w.queue_policy ≠ WorkerQueuePolicy.PrebufferOne)
    (hout : w.outstanding_items = []) :
    intakeOne t id p st k =
      (let w2 : Worker := { w with outstanding_items := w.outstanding_items ++ [t] }
       ({ st with workers := mapUpdate k w2 st.workers },
        [Output.workItem k id p])) := by
  simp [intakeOne, hl, hw, hpol, hout, releaseList,
    mapUpdate_self_eq k w st.workers hl]

/-- Equation: matching worker with `Async` policy, busy. -/
theorem intakeOne_eq_async_busy (t id : Nat) (p : String) (st : DState)
    (k : String) (w : Worker) (hl : mapLookup k st.workers = some w)
    (hw : w.wants_item id = true)
    (hpol : w.queue_policy ≠ WorkerQueuePolicy.PrebufferOne)
    (hskip : w.queue_policy ≠ WorkerQueuePolicy.Skip)
    (hout : w.outstanding_items ≠ []) :
    intakeOne t id p st k =
      (let w2 : Worker := { w with waiting_items := w.waiting_items ++ [t] }
       ({ st with workers := mapUpdate k w2 st.workers }, [])) := by
  simp [intakeOne, hl, hw, hpol, hskip, hout, releaseList,
    mapUpdate_self_eq k w st.workers hl]

/-- Equation: matching worker with `Skip` policy, busy: the item is
dropped on this worker. -/
theorem intakeOne_eq_skip_busy (t id : Nat) (p : String) (st : DState)
    (k : String) (w : Worker) (hl : mapLookup k st.workers = some w)
    (hw : w.wants_item id = true)
    (hskip : w.queue_policy = WorkerQueuePolicy.Skip)
    (hout : w.outstanding_items ≠ []) :
    intakeOne t id p st k = (st, []) := by
  have hpol : w.queue_policy ≠ WorkerQueuePolicy.PrebufferOne := by
    rw [hskip]
    intro hc
    exact WorkerQueuePolicy.noConfusion hc
  simp [intakeOne, hl, hw, hpol, hskip, hout, releaseList,
    mapUpdate_self_eq k w st.workers hl]

theorem occ_push_out_ne (w : Worker) (t s : Nat) (hs : s ≠ t) :
    ({ w with outstanding_items := w.outstanding_items ++ [t] } : Worker).occ s = w.occ s := by
  unfold Worker.occ
  simp only
  rw [count_append_single_ne _ _ _ hs]

theorem occ_push_wait_ne (w : Worker) (t s : Nat) (hs : s ≠ t) :
    ({ w with waiting_items := w.waiting_items ++ [t] } : Worker).occ s = w.occ s := by
  unfold Worker.occ
  simp only
  rw [count_append_single_ne _ _ _ hs]

theorem occ_wait_single_ne (w : Worker) (t s : Nat) (hs : s ≠ t) :
    ({ w with waiting_items := [t] } : Worker).occ s
      = ({ w with waiting_items := ([] : List Nat) } : Worker).occ s := by
  unfold Worker.occ
  have ht : ¬(t = s) := fun hc => hs hc.symm
  simp [List.count_cons, List.count_nil, ht]

/-- Fanning the new item out to one worker keeps the mid-intake
invariant, provided the worker does not yet reference the new item. -/
theorem intakeOne_midInv (t id : Nat) (p : String) (st : DState) (k : String)
    (hoccw : ∀ w, mapLookup k st.workers = some w → w.occ t = 0)
    (h : midInv t st) :
    midInv t (intakeOne t id p st k).1 := by
  cases hl : mapLookup k st.workers with
  | none => rw [intakeOne_of_lookup_none t id p st k hl]; exact h
  | some w =>
    by_cases hw : w.wants_item id = true
    · have hwocc : w.occ t = 0 := hoccw w hl
      have hwwait : w.waiting_items.count t = 0 := by
        unfold Worker.occ at hwocc
        omega
      by_cases hpol : w.queue_policy = WorkerQueuePolicy.PrebufferOne
      · have hocc1 : ∀ s,
            occAll (mapUpdate k ({ w with waiting_items := [] }) st.workers) s
              + w.waiting_items.count s = occAll st.workers s := by
          intro s
          have h1 := occAll_mapUpdate k ({ w with waiting_items := [] }) w st.workers hl s
          have h2 : w.occ s = w.waiting_items.count s + w.outstanding_items.count s := rfl
          have h3 : ({ w with waiting_items := [] } : Worker).occ s
              = w.outstanding_items.count s := by
            unfold Worker.occ
            simp
          omega
        have hmid2 := midInv_dropRelease t st
          ({ st with workers := mapUpdate k ({ w with waiting_items := [] }) st.workers })
          w.waiting_items rfl rfl rfl hocc1 hwwait h
        have hl2 : mapLookup k (releaseList
            ({ st with workers := mapUpdate k ({ w with waiting_items := [] }) st.workers })
            w.waiting_items).workers = some ({ w with waiting_items := [] }) := by
          rw [releaseList_workers]
          exact mapLookup_mapUpdate_self k _ w st.workers hl
        by_cases hout : w.outstanding_items = []
        · rw [intakeOne_eq_prebuffer_idle t id p st k w hl hw hpol hout]
          exact midInv_update t _ k ({ w with waiting_items := [] })
            ({ w with waiting_items := [],
                      outstanding_items := w.outstanding_items ++ [t] }) hl2
            (fun s hs => occ_push_out_ne ({ w with waiting_items := [] }) t s hs) hmid2
        · rw [intakeOne_eq_prebuffer_busy t id p st k w hl hw hpol hout]
          exact midInv_update t _ k ({ w with waiting_items := [] })
            ({ w with waiting_items := [t] }) hl2
            (fun s hs => occ_wait_single_ne w t s hs) hmid2
      · by_cases hout : w.outstanding_items = []
        · rw [intakeOne_eq_plain_idle t id p st k w hl hw hpol hout]
          exact midInv_update t st k w
            ({ w with outstanding_items := w.outstanding_items ++ [t] }) hl
            (fun s hs => occ_push_out_ne w t s hs) h
        · by_cases hskip : w.queue_policy = WorkerQueuePolicy.Skip
          · rw [intakeOne_eq_skip_busy t id p st k w hl hw hskip hout]
            exact h
          · rw [intakeOne_eq_async_busy t id p st k w hl hw hpol hskip hout]
            exact midInv_update t st k w
              ({ w with waiting_items := w.waiting_items ++ [t] }) hl
              (fun s hs => occ_push_wait_ne w t s hs) h
    · rw [intakeOne_of_nowant t id p st k w hl (by simpa using hw)]
      exact h

theorem wants_item_eq (w : Worker) (id : Nat) (h : w.wants_item id = true) :
    id % w.stride = w.offset := by
  simpa [Worker.wants_item] using h

theorem intakeLoop_created (t id : Nat) (p : String) (ks : List String) (st : DState) :
    (intakeLoop t id p st ks).1.created = st.created := by
  induction ks generalizing st with
  | nil => rfl
  | cons k ks ih =>
    show (intakeLoop t id p (intakeOne t id p st k).1 ks).1.created = st.created
    rw [ih, intakeOne_created]

theorem intakeLoop_sent (t id : Nat) (p : String) (ks : List String) (st : DState) :
    (intakeLoop t id p st ks).1.sent = st.sent := by
  induction ks generalizing st with
  | nil => rfl
  | cons k ks ih =>
    show (intakeLoop t id p (intakeOne t id p st k).1 ks).1.sent = st.sent
    rw [ih, intakeOne_sent]

theorem intakeLoop_lookup_not_mem (t id : Nat) (p : String) (ks : List String)
    (st : DState) (k' : String) (h : k' ∉ ks) :
    mapLookup k' (intakeLoop t id p st ks).1.workers = mapLookup k' st.workers := by
  induction ks generalizing st with
  | nil => rfl
  | cons k ks ih =>
    show mapLookup k' (intakeLoop t id p (intakeOne t id p st k).1 ks).1.workers = _
    have h1 : k' ∉ ks := fun hm => h (List.mem_cons_of_mem _ hm)
    have h2 : k' ≠ k := fun he => h (he ▸ List.mem_cons_self _ _)
    rw [ih _ h1, intakeOne_lookup_ne t id p st k k' h2]

/-- Running the fan-out loop over distinct keys whose workers do not yet
hold the new item keeps the mid-intake invariant. -/
theorem intakeLoop_midInv (t id : Nat) (p : String) (ks : List String) (st : DState)
    (hnd : ks.Nodup)
    (hks : ∀ k ∈ ks, ∀ w, mapLookup k st.workers = some w → w.occ t = 0)
    (h : midInv t st) :
    midInv t (intakeLoop t id p st ks).1 := by
  induction ks generalizing st with
  | nil => exact h
  | cons k ks ih =>
    show midInv t (intakeLoop t id p (intakeOne t id p st k).1 ks).1
    have hmid1 : midInv t (intakeOne t id p st k).1 :=
      intakeOne_midInv t id p st k (hks k (List.mem_cons_self _ _)) h
    refine ih _ (List.Nodup.of_cons hnd) ?_ hmid1
    intro k' hk' w hlw
    have hne : k' ≠ k := by
      intro he
      subst he
      exact (List.nodup_cons.mp hnd).1 hk'
    rw [intakeOne_lookup_ne t id p st k k' hne] at hlw
    exact hks k' (List.mem_cons_of_mem _ hk') w hlw

theorem intakeOne_sortedW (t id : Nat) (p : String) (st : DState) (k : String)
    (h : sortedW st.workers) :
    sortedW (intakeOne t id p st k).1.workers := by
  cases hl : mapLookup k st.workers with
  | none => rw [intakeOne_of_lookup_none t id p st k hl]; exact h
  | some w =>
    by_cases hw : w.wants_item id = true
    · by_cases hpol : w.queue_policy = WorkerQueuePolicy.PrebufferOne
      · by_cases hout : w.outstanding_items = []
        · rw [intakeOne_eq_prebuffer_idle t id p st k w hl hw hpol hout]
          simp only [releaseList_workers]
          exact sortedW_mapUpdate _ _ _ (sortedW_mapUpdate _ _ _ h)
        · rw [intakeOne_eq_prebuffer_busy t id p st k w hl hw hpol hout]
          simp only [releaseList_workers]
          exact sortedW_mapUpdate _ _ _ (sortedW_mapUpdate _ _ _ h)
      · by_cases hout : w.outstanding_items = []
        · rw [intakeOne_eq_plain_idle t id p st k w hl hw hpol hout]
          exact sortedW_mapUpdate _ _ _ h
        · by_cases hskip : w.queue_policy = WorkerQueuePolicy.Skip
          · rw [intakeOne_eq_skip_busy t id p st k w hl hw hskip hout]
            exact h
          · rw [intakeOne_eq_async_busy t id p st k w hl hw hpol hskip hout]
            exact sortedW_mapUpdate _ _ _ h
    · rw [intakeOne_of_nowant t id p st k w hl (by simpa using hw)]
      exact h

theorem intakeLoop_sortedW (t id : Nat) (p : String) (ks : List String) (st : DState)
    (h : sortedW st.workers) :
    sortedW (intakeLoop t id p st ks).1.workers := by
  induction ks generalizing st with
  | nil => exact h
  | cons k ks ih =>
    show sortedW (intakeLoop t id p (intakeOne t id p st k).1 ks).1.workers
    exact ih _ (intakeOne_sortedW t id p st k h)

theorem idOf_congr (st1 st2 : DState) (h : st1.created = st2.created) (s : Nat) :
    idOf st1 s = idOf st2 s := by
  unfold idOf
  rw [h]

theorem intakeOne_waitMatch (t id : Nat) (p : String) (st : DState) (k : String)
    (hid : idOf st t = id) (hwm : waitMatch st) :
    waitMatch (intakeOne t id p st k).1 := by
  intro k' w' hlk' s hsmem
  rw [idOf_congr _ st (intakeOne_created t id p st k) s]
  by_cases hk' : k' = k
  · subst hk'
    cases hl : mapLookup k' st.workers with
    | none =>
      rw [intakeOne_of_lookup_none t id p st k' hl] at hlk'
      exact hwm k' w' hlk' s hsmem
    | some w =>
      by_cases hw : w.wants_item id = true
      · have hl2 : mapLookup k' (releaseList
            ({ st with workers := mapUpdate k' ({ w with waiting_items := [] }) st.workers })
            w.waiting_items).workers = some ({ w with waiting_items := [] }) := by
          rw [releaseList_workers]
          exact mapLookup_mapUpdate_self k' _ w st.workers hl
        by_cases hpol : w.queue_policy = WorkerQueuePolicy.PrebufferOne
        · by_cases hout : w.outstanding_items = []
          · rw [intakeOne_eq_prebuffer_idle t id p st k' w hl hw hpol hout] at hlk'
            simp only at hlk'
            rw [mapLookup_mapUpdate_self k' _ _ _ hl2] at hlk'
            cases hlk'
            simp at hsmem
          · rw [intakeOne_eq_prebuffer_busy t id p st k' w hl hw hpol hout] at hlk'
            simp only at hlk'
            rw [mapLookup_mapUpdate_self k' _ _ _ hl2] at hlk'
            cases hlk'
            simp only [List.mem_singleton] at hsmem
            subst hsmem
            rw [hid]
            exact wants_item_eq w id hw
        · by_cases hout : w.outstanding_items = []
          · rw [intakeOne_eq_plain_idle t id p st k' w hl hw hpol hout] at hlk'
            simp only at hlk'
            rw [mapLookup_mapUpdate_self k' _ w _ hl] at hlk'
            cases hlk'
            exact hwm k' w hl s hsmem
          · by_cases hskip : w.queue_policy = WorkerQueuePolicy.Skip
            · rw [intakeOne_eq_skip_busy t id p st k' w hl hw hskip hout] at hlk'
              exact hwm k' w' hlk' s hsmem
            · rw [intakeOne_eq_async_busy t id p st k' w hl hw hpol hskip hout] at hlk'
              simp only at hlk'
              rw [mapLookup_mapUpdate_self k' _ w _ hl] at hlk'
              cases hlk'
              simp only [List.mem_append, List.mem_singleton] at hsmem
              rcases hsmem with hold | hnew
              · exact hwm k' w hl s hold
              · subst hnew
                rw [hid]
                exact wants_item_eq w id hw
      · rw [intakeOne_of_nowant t id p st k' w hl (by simpa using hw)] at hlk'
        exact hwm k' w' hlk' s hsmem
  · rw [intakeOne_lookup_ne t id p st k k' hk'] at hlk'
    exact hwm k' w' hlk' s hsmem

theorem intakeOne_prebufLen (t id : Nat) (p : String) (st : DState) (k : String)
    (hpb : prebufLen st) :
    prebufLen (intakeOne t id p st k).1 := by
  intro k' w' hlk' hpol'
  by_cases hk' : k' = k
  · subst hk'
    cases hl : mapLookup k' st.workers with
    | none =>
      rw [intakeOne_of_lookup_none t id p st k' hl] at hlk'
      exact hpb k' w' hlk' hpol'
    | some w =>
      by_cases hw : w.wants_item id = true
      · have hl2 : mapLookup k' (releaseList
            ({ st with workers := mapUpdate k' ({ w with waiting_items := [] }) st.workers })
            w.waiting_items).workers = some ({ w with waiting_items := [] }) := by
          rw [releaseList_workers]
          exact mapLookup_mapUpdate_self k' _ w st.workers hl
        by_cases hpol : w.queue_policy = WorkerQueuePolicy.PrebufferOne
        · by_cases hout : w.outstanding_items = []
          · rw [intakeOne_eq_prebuffer_idle t id p st k' w hl hw hpol hout] at hlk'
            simp only at hlk'
            rw [mapLookup_mapUpdate_self k' _ _ _ hl2] at hlk'
            cases hlk'
            simp
          · rw [intakeOne_eq_prebuffer_busy t id p st k' w hl hw hpol hout] at hlk'
            simp only at hlk'
            rw [mapLookup_mapUpdate_self k' _ _ _ hl2] at hlk'
            cases hlk'
            simp
        · by_cases hout : w.outstanding_items = []
          · rw [intakeOne_eq_plain_idle t id p st k' w hl hw hpol hout] at hlk'
            simp only at hlk'
            rw [mapLookup_mapUpdate_self k' _ w _ hl] at hlk'
            cases hlk'
            exact hpb k' w hl hpol'
          · by_cases hskip : w.queue_policy = WorkerQueuePolicy.Skip
            · rw [intakeOne_eq_skip_busy t id p st k' w hl hw hskip hout] at hlk'
              exact hpb k' w' hlk' hpol'
            · rw [intakeOne_eq_async_busy t id p st k' w hl hw hpol hskip hout] at hlk'
              simp only at hlk'
              rw [mapLookup_mapUpdate_self k' _ w _ hl] at hlk'
              cases hlk'
              exact absurd hpol' hpol
      · rw [intakeOne_of_nowant t id p st k' w hl (by simpa using hw)] at hlk'
        exact hpb k' w' hlk' hpol'
  · rw [intakeOne_lookup_ne t id p st k k' hk'] at hlk'
    exact hpb k' w' hlk' hpol'

theorem intakeLoop_waitMatch (t id : Nat) (p : String) (ks : List String) (st : DState)
    (hid : idOf st t = id) (hwm : waitMatch st) :
    waitMatch (intakeLoop t id p st ks).1 := by
  induction ks generalizing st with
  | nil => exact hwm
  | cons k ks ih =>
    show waitMatch (intakeLoop t id p (intakeOne t id p st k).1 ks).1
    refine ih _ ?_ (intakeOne_waitMatch t id p st k hid hwm)
    rw [idOf_congr _ st (intakeOne_created t id p st k) t]
    exact hid

theorem intakeLoop_prebufLen (t id : Nat) (p : String) (ks : List String) (st : DState)
    (hpb : prebufLen st) :
    prebufLen (intakeLoop t id p st ks).1 := by
  induction ks generalizing st with
  | nil => exact hpb
  | cons k ks ih =>
    show prebufLen (intakeLoop t id p (intakeOne t id p st k).1 ks).1
    exact ih _ (intakeOne_prebufLen t id p st k hpb)

/-! ### The reachable-state invariant -/

theorem initState_DInv : DInv initState := by
  refine ⟨⟨?_, ?_, ?_, ?_⟩, rfl⟩
  · exact List.Pairwise.nil
  · intro s
    constructor
    · intro h
      simp [initState] at h
    · intro _
      constructor <;> rfl
  · intro k w hl
    simp [initState, mapLookup] at hl
  · intro k w hl
    simp [initState, mapLookup] at hl

theorem drain_InvP (st : DState) (h : InvP st) :
    DInv (send_pending_completions none st).1 := by
  obtain ⟨hs, hg, hwm, hpb⟩ := h
  rw [send_pending_completions_none]
  refine ⟨⟨hs, ?_, ?_, ?_⟩, rfl⟩
  · intro s
    obtain ⟨hlt, hge⟩ := hg s
    have hcnt : cnt { st with ledger := [], sent := st.sent ++ st.ledger } s = cnt st s := by
      unfold cnt
      simp [List.count_append]
      omega
    constructor
    · intro h1
      rw [hcnt]
      exact hlt h1
    · intro h1
      rw [hcnt]
      exact hge h1
  · intro k w hl s hmem
    exact hwm k w hl s hmem
  · intro k w hl hp
    exact hpb k w hl hp

theorem sortedW_nodup_keys (ws : List (String × Worker)) (h : sortedW ws) :
    (ws.map Prod.fst).Nodup := by
  have h1 : (ws.map Prod.fst).Pairwise (fun a b => strLt a b = true) := by
    rw [List.pairwise_map]
    exact h
  exact h1.imp (fun hab => strLt_ne _ _ hab)

theorem mapLookup_eq_none_of_not_mem (k : String) (ws : List (String × Worker))
    (h : k ∉ ws.map Prod.fst) :
    mapLookup k ws = none := by
  induction ws with
  | nil => rfl
  | cons hd tl ih =>
    obtain ⟨k', w'⟩ := hd
    simp only [List.map_cons, List.mem_cons] at h
    push_neg at h
    rw [mapLookup, if_neg h.1]
    exact ih h.2

theorem mapLookup_mapErase_self (k : String) (ws : List (String × Worker))
    (hnd : (ws.map Prod.fst).Nodup) :
    mapLookup k (mapErase k ws) = none := by
  induction ws with
  | nil => rfl
  | cons hd tl ih =>
    obtain ⟨k', w'⟩ := hd
    simp only [List.map_cons, List.nodup_cons] at hnd
    by_cases hk : k = k'
    · rw [mapErase, if_pos hk]
      subst hk
      exact mapLookup_eq_none_of_not_mem k tl hnd.1
    · rw [mapErase, if_neg hk, mapLookup, if_neg hk]
      exact ih hnd.2

theorem freshWorker_occ (stride offset : Nat) (pol : WorkerQueuePolicy)
    (name : String) (s : Nat) :
    ({ stride := stride, offset := offset, queue_policy := pol,
       client_name := name } : Worker).occ s = 0 := by
  simp [Worker.occ]

theorem idOf_concat (st : DState) (id : Nat) (p : String) :
    idOf { st with created := st.created ++ [(id, p)] } st.created.length = id := by
  unfold idOf
  simp only
  rw [List.getElem?_concat_length]
  rfl

theorem idOf_append_lt (st : DState) (ext : List (Nat × String)) (s : Nat)
    (h : s < st.created.length) :
    idOf { st with created := st.created ++ ext } s = idOf st s := by
  unfold idOf
  simp only
  rw [List.getElem?_append_left h]

/-- Creating the item record turns the boundary invariant into the
mid-intake invariant for the new serial. -/
theorem midInv_newItem (st : DState) (id : Nat) (p : String)
    (h : ∀ s, goodSerial st s) :
    midInv st.created.length { st with created := st.created ++ [(id, p)] } := by
  refine ⟨?_, ?_, ?_⟩
  · simp
  · exact ((h st.created.length).2 le_rfl).1
  · intro s hs
    obtain ⟨hlt, hge⟩ := h s
    constructor
    · intro h1
      simp only [List.length_append, List.length_singleton] at h1
      have hslt : s < st.created.length := by
        rcases Nat.lt_or_ge s st.created.length with h2 | h2
        · exact h2
        · omega
      exact hlt hslt
    · intro h1
      simp only [List.length_append, List.length_singleton] at h1
      exact hge (by omega)

theorem occ_all_zero_per_worker (st : DState) (t : Nat)
    (h : occAll st.workers t = 0) :
    ∀ k ∈ st.workers.map Prod.fst, ∀ w, mapLookup k st.workers = some w → w.occ t = 0 := by
  intro k _ w hl
  have := occ_le_occAll k w st.workers hl t
  omega

/-- `on_generator_pollin` preserves the boundary invariant. -/
theorem on_generator_pollin_DInv (st : DState) (id : Nat) (p : String)
    (h : DInv st) :
    DInv (on_generator_pollin st id p).1 := by
  obtain ⟨⟨hs, hg, hwm, hpb⟩, hlnil⟩ := h
  unfold on_generator_pollin
  simp only
  apply drain_InvP
  set t := st.created.length with ht
  set st0 : DState := { st with created := st.created ++ [(id, p)] } with hst0
  have hocc0 : occAll st0.workers t = 0 := ((hg t).2 le_rfl).2
  have hmid0 : midInv t st0 := midInv_newItem st id p hg
  have hid0 : idOf st0 t = id := idOf_concat st id p
  have hnd : (st0.workers.map Prod.fst).Nodup := sortedW_nodup_keys _ hs
  set q := intakeLoop t id p st0 (st0.workers.map Prod.fst) with hq
  have hmid1 : midInv t q.1 :=
    intakeLoop_midInv t id p _ st0 hnd (occ_all_zero_per_worker st0 t hocc0) hmid0
  have hsor1 : sortedW q.1.workers := intakeLoop_sortedW t id p _ st0 hs
  have hwm1 : waitMatch q.1 := by
    refine intakeLoop_waitMatch t id p _ st0 hid0 ?_
    intro k w hl s hmem
    have hslt : s < st.created.length := by
      have h1 : 0 < w.occ s := by
        have := List.count_pos_iff.mpr hmem
        unfold Worker.occ
        omega
      have h2 := occ_le_occAll k w st.workers hl s
      by_contra hcon
      push_neg at hcon
      have := ((hg s).2 hcon).2
      omega
    rw [idOf_append_lt st [(id, p)] s hslt]
    exact hwm k w hl s hmem
  have hpb1 : prebufLen q.1 := intakeLoop_prebufLen t id p _ st0 hpb
  obtain ⟨hm1, hm2, hm3⟩ := hmid1
  refine ⟨?_, ?_, ?_, ?_⟩
  · rw [releaseList_workers]
    exact hsor1
  · intro s
    by_cases hst : s = t
    · rw [hst]
      constructor
      · intro _
        unfold cnt
        rw [count_ledger_releaseList, releaseList_sent, releaseList_workers]
        unfold cnt at hm2
        by_cases ho : occAll q.1.workers t = 0
        · rw [if_pos ⟨ho, List.mem_singleton_self t⟩]
          have hmin : min (occAll q.1.workers t) 1 = 0 := by
            simp [ho]
          omega
        · rw [if_neg (fun hc => ho hc.1)]
          have hmin : min (occAll q.1.workers t) 1 = 1 := by omega
          omega
      · intro hcon
        rw [releaseList_created] at hcon
        omega
    · exact goodSerial_dropRelease q.1 q.1 [t] s rfl rfl rfl
        (by
          have : List.count s [t] = 0 := by
            simp [List.count_cons, List.count_nil]
            intro hc
            exact absurd hc.symm hst
          omega)
        (hm3 s hst)
  · intro k w hl s hmem
    rw [releaseList_workers] at hl
    rw [idOf_congr _ q.1 (releaseList_created _ _) s]
    exact hwm1 k w hl s hmem
  · intro k w hl hp
    rw [releaseList_workers] at hl
    exact hpb1 k w hl hp

theorem count_single (s r : Nat) : List.count s [r] = if s = r then 1 else 0 := by
  simp only [List.count_cons, List.count_nil, beq_iff_eq, Nat.zero_add]
  by_cases h : s = r
  · simp [h]
  · have h2 : ¬r = s := fun hc => h hc.symm
    simp [h, h2]

theorem idOf_releaseList (st : DState) (l : List Nat) (s : Nat) :
    idOf (releaseList st l) s = idOf st s := by
  unfold idOf
  rw [releaseList_created]

theorem handleRegister_InvP (st : DState) (identity : String)
    (stride offset : Nat) (pol : WorkerQueuePolicy) (name : String)
    (h : DInv st) :
    InvP (handleRegister st identity stride offset pol name) := by
  obtain ⟨⟨hs, hg, hwm, hpb⟩, hlnil⟩ := h
  unfold handleRegister
  cases hl : mapLookup identity st.workers with
  | none =>
    simp only
    refine ⟨?_, ?_, ?_, ?_⟩
    · exact sortedW_mapInsert _ _ _ hs
    · intro s
      refine goodSerial_congr st _ s rfl rfl rfl ?_ (hg s)
      simp only
      rw [occAll_mapInsert_of_lookup_none _ _ _ hl, freshWorker_occ]
      omega
    · intro k w hlk s hmem
      simp only at hlk
      by_cases hk : k = identity
      · subst hk
        rw [mapLookup_mapInsert_self] at hlk
        cases hlk
        simp at hmem
      · rw [mapLookup_mapInsert_ne _ _ _ _ hk] at hlk
        exact hwm k w hlk s hmem
    · intro k w hlk hp
      simp only at hlk
      by_cases hk : k = identity
      · subst hk
        rw [mapLookup_mapInsert_self] at hlk
        cases hlk
        simp
      · rw [mapLookup_mapInsert_ne _ _ _ _ hk] at hlk
        exact hpb k w hlk hp
  | some old =>
    simp only
    have hocc : ∀ s,
        occAll (mapUpdate identity
          ({ stride := stride, offset := offset, queue_policy := pol,
             client_name := name } : Worker) st.workers) s
          + (old.outstanding_items ++ old.waiting_items).count s
          = occAll st.workers s := by
      intro s
      have h1 := occAll_mapUpdate identity
        ({ stride := stride, offset := offset, queue_policy := pol,
           client_name := name } : Worker) old st.workers hl s
      have h2 : old.occ s = old.waiting_items.count s + old.outstanding_items.count s := rfl
      rw [freshWorker_occ] at h1
      rw [List.count_append]
      omega
    refine ⟨?_, ?_, ?_, ?_⟩
    · rw [releaseList_workers]
      exact sortedW_mapUpdate _ _ _ hs
    · intro s
      exact goodSerial_dropRelease st _ _ s rfl rfl rfl (hocc s) (hg s)
    · intro k w hlk s hmem
      rw [releaseList_workers] at hlk
      rw [idOf_releaseList]
      by_cases hk : k = identity
      · subst hk
        rw [mapLookup_mapUpdate_self _ _ old _ hl] at hlk
        cases hlk
        simp at hmem
      · rw [mapLookup_mapUpdate_ne _ _ _ _ hk] at hlk
        exact hwm k w hlk s hmem
    · intro k w hlk hp
      rw [releaseList_workers] at hlk
      by_cases hk : k = identity
      · subst hk
        rw [mapLookup_mapUpdate_self _ _ old _ hl] at hlk
        cases hlk
        simp
      · rw [mapLookup_mapUpdate_ne _ _ _ _ hk] at hlk
        exact hpb k w hlk hp

theorem handleDisconnect_InvP (st : DState) (identity : String)
    (h : DInv st) :
    InvP (handleDisconnect st identity).1 := by
  obtain ⟨⟨hs, hg, hwm, hpb⟩, hlnil⟩ := h
  unfold handleDisconnect
  cases hl : mapLookup identity st.workers with
  | none => exact ⟨hs, hg, hwm, hpb⟩
  | some old =>
    simp only
    have hocc : ∀ s,
        occAll (mapErase identity st.workers) s
          + (old.outstanding_items ++ old.waiting_items).count s
          = occAll st.workers s := by
      intro s
      have h1 := occAll_mapErase identity old st.workers hl s
      have h2 : old.occ s = old.waiting_items.count s + old.outstanding_items.count s := rfl
      rw [List.count_append]
      omega
    refine ⟨?_, ?_, ?_, ?_⟩
    · rw [releaseList_workers]
      exact sortedW_mapErase _ _ hs
    · intro s
      exact goodSerial_dropRelease st _ _ s rfl rfl rfl (hocc s) (hg s)
    · intro k w hlk s hmem
      rw [releaseList_workers] at hlk
      rw [idOf_releaseList]
      by_cases hk : k = identity
      · subst hk
        rw [mapLookup_mapErase_self _ _ (sortedW_nodup_keys _ hs)] at hlk
        cases hlk
      · rw [mapLookup_mapErase_ne _ _ _ hk] at hlk
        exact hwm k w hlk s hmem
    · intro k w hlk hp
      rw [releaseList_workers] at hlk
      by_cases hk : k = identity
      · subst hk
        rw [mapLookup_mapErase_self _ _ (sortedW_nodup_keys _ hs)] at hlk
        cases hlk
      · rw [mapLookup_mapErase_ne _ _ _ hk] at hlk
        exact hpb k w hlk hp

theorem if_eq_comm_nat (a b : Nat) :
    (if a = b then 1 else 0 : Nat) = if b = a then 1 else 0 := by
  by_cases h : a = b
  · simp [h]
  · have h2 : ¬b = a := fun hc => h hc.symm
    simp [h, h2]

theorem eraseFirstIdMatch_count (st : DState) (id : Nat) (l : List Nat)
    (r : Nat) (l' : List Nat) (h : eraseFirstIdMatch st id l = some (r, l'))
    (s : Nat) :
    l'.count s + (if s = r then 1 else 0) = l.count s := by
  induction l generalizing l' r with
  | nil => simp [eraseFirstIdMatch] at h
  | cons a rest ih =>
    unfold eraseFirstIdMatch at h
    by_cases hm : idOf st a = id
    · rw [if_pos hm] at h
      injection h with h1
      injection h1 with hr hl'
      subst hr
      subst hl'
      have hc := if_eq_comm_nat a s
      simp only [List.count_cons, beq_iff_eq]
      omega
    · rw [if_neg hm] at h
      rcases Option.map_eq_some'.mp h with ⟨p, herase, hpair⟩
      obtain ⟨r0, l0⟩ := p
      simp only at hpair
      injection hpair with hr hl'
      subst hr
      subst hl'
      have hrec := ih r0 l0 herase
      have hc := if_eq_comm_nat a s
      simp only [List.count_cons, beq_iff_eq]
      omega

theorem eraseFirstIdMatch_idOf (st : DState) (id : Nat) (l : List Nat)
    (r : Nat) (l' : List Nat) (h : eraseFirstIdMatch st id l = some (r, l')) :
    idOf st r = id := by
  induction l generalizing l' r with
  | nil => simp [eraseFirstIdMatch] at h
  | cons a rest ih =>
    unfold eraseFirstIdMatch at h
    by_cases hm : idOf st a = id
    · rw [if_pos hm] at h
      injection h with h1
      injection h1 with hr hl'
      subst hr
      exact hm
    · rw [if_neg hm] at h
      rcases Option.map_eq_some'.mp h with ⟨p, herase, hpair⟩
      obtain ⟨r0, l0⟩ := p
      simp only at hpair
      injection hpair with hr hl'
      subst hr
      exact ih r0 l0 herase

/-- Replacing a worker by one with the same predicate, policy, equal
per-serial reference counts and a smaller waiting queue preserves the
state invariants. -/
theorem InvP_promote (stR : DState) (identity : String) (c1 c2 : Worker)
    (hlR : mapLookup identity stR.workers = some c1)
    (hocc : ∀ x, c2.occ x = c1.occ x)
    (hwsub : ∀ s ∈ c2.waiting_items, s ∈ c1.waiting_items)
    (hstride : c2.stride = c1.stride) (hoffset : c2.offset = c1.offset)
    (hpol : c2.queue_policy = c1.queue_policy)
    (hlen : c2.waiting_items.length ≤ c1.waiting_items.length)
    (h : InvP stR) :
    InvP { stR with workers := mapUpdate identity c2 stR.workers } := by
  obtain ⟨hs, hg, hwm, hpb⟩ := h
  refine ⟨?_, ?_, ?_, ?_⟩
  · exact sortedW_mapUpdate _ _ _ hs
  · intro s
    refine goodSerial_congr stR _ s rfl rfl rfl ?_ (hg s)
    simp only
    have h1 := occAll_mapUpdate identity c2 c1 stR.workers hlR s
    have h2 := hocc s
    omega
  · intro k w hlk s hmem
    simp only at hlk
    have hio : idOf { stR with workers := mapUpdate identity c2 stR.workers } s
        = idOf stR s := rfl
    rw [hio]
    by_cases hk : k = identity
    · subst hk
      rw [mapLookup_mapUpdate_self _ _ c1 _ hlR] at hlk
      cases hlk
      rw [hstride, hoffset]
      exact hwm k c1 hlR s (hwsub s hmem)
    · rw [mapLookup_mapUpdate_ne _ _ _ _ hk] at hlk
      exact hwm k w hlk s hmem
  · intro k w hlk hp
    simp only at hlk
    by_cases hk : k = identity
    · subst hk
      rw [mapLookup_mapUpdate_self _ _ c1 _ hlR] at hlk
      cases hlk
      rw [hpol] at hp
      exact le_trans hlen (hpb k c1 hlR hp)
    · rw [mapLookup_mapUpdate_ne _ _ _ _ hk] at hlk
      exact hpb k w hlk hp

theorem handleComplete_InvP (st : DState) (identity : String) (id : Nat)
    (st1 : DState) (outs1 : List Output)
    (heq : handleComplete st identity id = Except.ok (st1, outs1))
    (h : DInv st) :
    InvP st1 := by
  obtain ⟨⟨hs, hg, hwm, hpb⟩, hlnil⟩ := h
  unfold handleComplete at heq
  cases hl : mapLookup identity st.workers with
  | none =>
    rw [hl] at heq
    simp at heq
  | some c =>
    rw [hl] at heq
    simp only at heq
    cases herase : eraseFirstIdMatch st id c.outstanding_items with
    | none =>
      rw [herase] at heq
      simp at heq
    | some pr =>
      obtain ⟨removed, rest⟩ := pr
      rw [herase] at heq
      simp only at heq
      have hcount := eraseFirstIdMatch_count st id c.outstanding_items removed rest herase
      have hocc : ∀ s,
          occAll (mapUpdate identity ({ c with outstanding_items := rest }) st.workers) s
            + List.count s [removed] = occAll st.workers s := by
        intro s
        have h1 := occAll_mapUpdate identity ({ c with outstanding_items := rest })
          c st.workers hl s
        have h2 : c.occ s = c.waiting_items.count s + c.outstanding_items.count s := rfl
        have h3 : ({ c with outstanding_items := rest } : Worker).occ s
            = c.waiting_items.count s + rest.count s := rfl
        have h4 := hcount s
        rw [count_single]
        omega
      set stR := releaseList
        ({ st with workers := mapUpdate identity ({ c with outstanding_items := rest }) st.workers })
        [removed] with hstR
      have hInvR : InvP stR := by
        refine ⟨?_, ?_, ?_, ?_⟩
        · rw [hstR, releaseList_workers]
          exact sortedW_mapUpdate _ _ _ hs
        · intro s
          exact goodSerial_dropRelease st _ _ s rfl rfl rfl (hocc s) (hg s)
        · intro k w hlk s hmem
          rw [hstR, releaseList_workers] at hlk
          rw [hstR, idOf_releaseList]
          by_cases hk : k = identity
          · subst hk
            rw [mapLookup_mapUpdate_self _ _ c _ hl] at hlk
            cases hlk
            exact hwm k c hl s hmem
          · rw [mapLookup_mapUpdate_ne _ _ _ _ hk] at hlk
            exact hwm k w hlk s hmem
        · intro k w hlk hp
          rw [hstR, releaseList_workers] at hlk
          by_cases hk : k = identity
          · subst hk
            rw [mapLookup_mapUpdate_self _ _ c _ hl] at hlk
            cases hlk
            have := hpb k c hl hp
            simpa using this
          · rw [mapLookup_mapUpdate_ne _ _ _ _ hk] at hlk
            exact hpb k w hlk hp
      have hlR : mapLookup identity stR.workers
          = some ({ c with outstanding_items := rest }) := by
        rw [hstR, releaseList_workers]
        exact mapLookup_mapUpdate_self _ _ c _ hl
      cases hwait : c.waiting_items with
      | nil =>
        rw [hwait] at heq
        simp only at heq
        injection heq with hpair
        injection hpair with h1 h2
        subst h1
        exact hInvR
      | cons s0 ws =>
        rw [hwait] at heq
        simp only at heq
        injection heq with hpair
        injection hpair with h1 h2
        subst h1
        refine InvP_promote stR identity ({ c with outstanding_items := rest })
          ({ c with waiting_items := ws, outstanding_items := rest ++ [s0] })
          hlR ?_ ?_ rfl rfl rfl ?_ hInvR
        · intro x
          have h2 : ({ c with waiting_items := ws, outstanding_items := rest ++ [s0] } : Worker).occ x = ws.count x + (rest.count x + List.count x [s0]) := by
            unfold Worker.occ
            simp [List.count_append]
          have h3 : ({ c with outstanding_items := rest } : Worker).occ x
              = c.waiting_items.count x + rest.count x := rfl
          have h4 : c.waiting_items.count x = ws.count x + (if x = s0 then 1 else 0) := by
            rw [hwait]
            simp only [List.count_cons, beq_iff_eq]
            have hc0 := if_eq_comm_nat s0 x
            omega
          rw [count_single] at h2
          have hc := if_eq_comm_nat x s0
          omega
        · intro s hmem
          simp only [hwait]
          simp only at hmem
          exact List.mem_cons_of_mem _ hmem
        · simp only [hwait]
          simp

/-- Every core transition preserves the boundary invariant. -/
theorem coreStep_DInv (st : DState) (e : CoreEvent) (st' : DState)
    (outs : List Output) (heq : coreStep st e = Except.ok (st', outs))
    (h : DInv st) :
    DInv st' := by
  cases e with
  | newItem id payload =>
    unfold coreStep at heq
    injection heq with hpair
    injection hpair with h1 h2
    subst h1
    exact on_generator_pollin_DInv st id payload h
  | register identity stride offset pol name =>
    unfold coreStep at heq
    injection heq with hpair
    injection hpair with h1 h2
    subst h1
    exact drain_InvP _ (handleRegister_InvP st identity stride offset pol name h)
  | complete identity id =>
    unfold coreStep at heq
    simp only at heq
    cases hc : handleComplete st identity id with
    | error e0 =>
      rw [hc] at heq
      simp at heq
    | ok pr =>
      obtain ⟨st1, outs1⟩ := pr
      rw [hc] at heq
      simp only at heq
      injection heq with hpair
      injection hpair with h1 h2
      subst h1
      exact drain_InvP _ (handleComplete_InvP st identity id st1 outs1 hc h)
  | disconnect identity =>
    unfold coreStep at heq
    injection heq with hpair
    injection hpair with h1 h2
    subst h1
    exact drain_InvP _ (handleDisconnect_InvP st identity h)
  | tick =>
    unfold coreStep at heq
    injection heq with hpair
    injection hpair with h1 h2
    subst h1
    exact h

/-- The boundary invariant holds along every successful run. -/
theorem coreRun_DInv (evs : List CoreEvent) (st st' : DState)
    (outs : List Output) (heq : coreRun st evs = Except.ok (st', outs))
    (h : DInv st) :
    DInv st' := by
  induction evs generalizing st outs with
  | nil =>
    unfold coreRun at heq
    injection heq with hpair
    injection hpair with h1 h2
    subst h1
    exact h
  | cons e es ih =>
    unfold coreRun at heq
    cases hstep : coreStep st e with
    | error e0 =>
      rw [hstep] at heq
      simp at heq
    | ok pr =>
      obtain ⟨st1, outs1⟩ := pr
      rw [hstep] at heq
      simp only at heq
      cases hrun : coreRun st1 es with
      | error e0 =>
        rw [hrun] at heq
        simp at heq
      | ok pr2 =>
        obtain ⟨st2, outs2⟩ := pr2
        rw [hrun] at heq
        simp only at heq
        injection heq with hpair
        injection hpair with h1 h2
        subst h1
        exact ih st1 outs2 hrun (coreStep_DInv st e st1 outs1 hstep h)

/-- The boundary invariant holds in every state reachable from start. -/
theorem coreRun_init_DInv (evs : List CoreEvent) (st : DState)
    (outs : List Output) (heq : coreRun initState evs = Except.ok (st, outs)) :
    DInv st :=
  coreRun_DInv evs initState st outs heq initState_DInv

/-! ### Output accounting: completions delivered to the producer -/

theorem completionIds_append (a b : List Output) :
    completionIds (a ++ b) = completionIds a ++ completionIds b := by
  unfold completionIds
  rw [List.filterMap_append]

theorem completionIds_drain (st : DState) :
    completionIds (send_pending_completions none st).2
      = st.ledger.map (idOf st) := by
  rw [send_pending_completions_none]
  unfold completionIds
  rw [List.filterMap_map]
  show List.filterMap (some ∘ idOf st) st.ledger = List.map (idOf st) st.ledger
  rw [List.filterMap_eq_map]

theorem drain_state (st : DState) :
    (send_pending_completions none st).1
      = { st with ledger := [], sent := st.sent ++ st.ledger } := by
  rw [send_pending_completions_none]

theorem intakeOne_outs (t id : Nat) (p : String) (st : DState) (k : String) :
    (intakeOne t id p st k).2 = []
      ∨ (intakeOne t id p st k).2 = [Output.workItem k id p] := by
  unfold intakeOne
  cases hl : mapLookup k st.workers with
  | none => left; rfl
  | some w =>
    by_cases hw : w.wants_item id = true
    · simp only [hw, if_true]
      split <;> try split
      all_goals try split
      all_goals simp
    · simp [hw]

theorem intakeLoop_completionIds (t id : Nat) (p : String) (ks : List String)
    (st : DState) :
    completionIds (intakeLoop t id p st ks).2 = [] := by
  induction ks generalizing st with
  | nil => rfl
  | cons k ks ih =>
    show completionIds ((intakeOne t id p st k).2
      ++ (intakeLoop t id p (intakeOne t id p st k).1 ks).2) = []
    rw [completionIds_append, ih]
    rcases intakeOne_outs t id p st k with h | h <;> rw [h] <;> rfl

theorem handleRegister_created (st : DState) (identity : String)
    (stride offset : Nat) (pol : WorkerQueuePolicy) (name : String) :
    (handleRegister st identity stride offset pol name).created = st.created := by
  unfold handleRegister
  cases mapLookup identity st.workers <;> simp [releaseList_created]

theorem handleRegister_sent (st : DState) (identity : String)
    (stride offset : Nat) (pol : WorkerQueuePolicy) (name : String) :
    (handleRegister st identity stride offset pol name).sent = st.sent := by
  unfold handleRegister
  cases mapLookup identity st.workers <;> simp [releaseList_sent]

theorem handleDisconnect_created (st : DState) (identity : String) :
    (handleDisconnect st identity).1.created = st.created := by
  unfold handleDisconnect
  cases mapLookup identity st.workers <;> simp [releaseList_created]

theorem handleDisconnect_sent (st : DState) (identity : String) :
    (handleDisconnect st identity).1.sent = st.sent := by
  unfold handleDisconnect
  cases mapLookup identity st.workers <;> simp [releaseList_sent]

theorem handleDisconnect_completionIds (st : DState) (identity : String) :
    completionIds (handleDisconnect st identity).2 = [] := by
  unfold handleDisconnect
  cases mapLookup identity st.workers <;> rfl

theorem handleComplete_ok_facts (st : DState) (identity : String) (id : Nat)
    (st1 : DState) (outs1 : List Output)
    (heq : handleComplete st identity id = Except.ok (st1, outs1)) :
    st1.created = st.created ∧ st1.sent = st.sent ∧ completionIds outs1 = [] := by
  unfold handleComplete at heq
  cases hl : mapLookup identity st.workers with
  | none => rw [hl] at heq; simp at heq
  | some c =>
    rw [hl] at heq
    simp only at heq
    cases herase : eraseFirstIdMatch st id c.outstanding_items with
    | none => rw [herase] at heq; simp at heq
    | some pr =>
      obtain ⟨removed, rest⟩ := pr
      rw [herase] at heq
      simp only at heq
      cases hwait : c.waiting_items with
      | nil =>
        rw [hwait] at heq
        simp only at heq
        injection heq with hpair
        injection hpair with h1 h2
        subst h1
        subst h2
        refine ⟨?_, ?_, rfl⟩
        · rw [releaseList_created]
        · rw [releaseList_sent]
      | cons s0 ws =>
        rw [hwait] at heq
        simp only at heq
        injection heq with hpair
        injection hpair with h1 h2
        subst h1
        subst h2
        refine ⟨?_, ?_, rfl⟩
        · show (releaseList _ _).created = st.created
          rw [releaseList_created]
        · show (releaseList _ _).sent = st.sent
          rw [releaseList_sent]

theorem send_heartbeat_completionIds (st : DState) :
    completionIds (send_heartbeat st) = [] := by
  unfold completionIds send_heartbeat
  rw [List.filterMap_filterMap]
  apply List.filterMap_eq_nil_iff.mpr
  intro kw _
  by_cases h : kw.2.outstanding_items.isEmpty <;> simp [h]

theorem on_generator_pollin_accounting (st : DState) (id : Nat) (payload : String) :
    ∃ d, (on_generator_pollin st id payload).1.sent = st.sent ++ d
      ∧ (on_generator_pollin st id payload).1.created = st.created ++ [(id, payload)]
      ∧ completionIds (on_generator_pollin st id payload).2
          = d.map (idOf (on_generator_pollin st id payload).1) := by
  unfold on_generator_pollin
  simp only
  set st0 : DState := { st with created := st.created ++ [(id, payload)] } with hst0
  set q := intakeLoop st.created.length id payload st0 (st0.workers.map Prod.fst) with hq
  set st2 := releaseList q.1 [st.created.length] with hst2
  have hsent2 : st2.sent = st.sent := by
    rw [hst2, releaseList_sent, hq, intakeLoop_sent]
  have hcre2 : st2.created = st.created ++ [(id, payload)] := by
    rw [hst2, releaseList_created, hq, intakeLoop_created]
  refine ⟨st2.ledger, ?_, ?_, ?_⟩
  · rw [drain_state]
    simp only
    rw [hsent2]
  · rw [drain_state]
    simp only
    exact hcre2
  · rw [completionIds_append, completionIds_drain, hq, intakeLoop_completionIds]
    rw [List.nil_append]
    apply List.map_congr_left
    intro s _
    apply idOf_congr
    rw [drain_state]

/-- Each core transition appends a batch to the drained-serial history,
extends the item table, and reports exactly that batch's IDs. -/
theorem coreStep_accounting (st : DState) (e : CoreEvent) (st' : DState)
    (outs : List Output) (heq : coreStep st e = Except.ok (st', outs)) :
    ∃ d ext, st'.sent = st.sent ++ d ∧ st'.created = st.created ++ ext
      ∧ completionIds outs = d.map (idOf st') := by
  cases e with
  | newItem id payload =>
    unfold coreStep at heq
    injection heq with hpair
    injection hpair with h1 h2
    subst h1
    subst h2
    obtain ⟨d, hd1, hd2, hd3⟩ := on_generator_pollin_accounting st id payload
    exact ⟨d, [(id, payload)], hd1, hd2, hd3⟩
  | register identity stride offset pol name =>
    unfold coreStep at heq
    injection heq with hpair
    set X := handleRegister st identity stride offset pol name with hX
    have hst' : st' = (send_pending_completions none X).1 := by rw [hpair]
    have houts : outs = (send_pending_completions none X).2 := by rw [hpair]
    subst hst'
    subst houts
    refine ⟨X.ledger, [], ?_, ?_, ?_⟩
    · rw [drain_state]
      simp only
      rw [hX, handleRegister_sent]
    · rw [drain_state]
      simp only
      rw [List.append_nil, hX, handleRegister_created]
    · rw [completionIds_drain]
      apply List.map_congr_left
      intro s _
      apply idOf_congr
      rw [drain_state]
  | complete identity id =>
    unfold coreStep at heq
    simp only at heq
    cases hc : handleComplete st identity id with
    | error e0 =>
      rw [hc] at heq
      simp at heq
    | ok pr =>
      obtain ⟨st1, outs1⟩ := pr
      rw [hc] at heq
      simp only at heq
      injection heq with hpair
      injection hpair with h1 h2
      subst h1
      subst h2
      obtain ⟨hcre, hsen, hcomp⟩ := handleComplete_ok_facts st identity id st1 outs1 hc
      refine ⟨st1.ledger, [], ?_, ?_, ?_⟩
      · rw [drain_state]
        simp only
        rw [hsen]
      · rw [drain_state]
        simp only
        rw [List.append_nil, hcre]
      · rw [completionIds_append, hcomp, completionIds_drain, List.nil_append]
        apply List.map_congr_left
        intro s _
        apply idOf_congr
        rw [drain_state]
  | disconnect identity =>
    unfold coreStep at heq
    injection heq with hpair
    injection hpair with h1 h2
    subst h1
    subst h2
    set P := handleDisconnect st identity with hP
    refine ⟨P.1.ledger, [], ?_, ?_, ?_⟩
    · rw [drain_state]
      simp only
      rw [hP, handleDisconnect_sent]
    · rw [drain_state]
      simp only
      rw [List.append_nil, hP, handleDisconnect_created]
    · rw [completionIds_append, hP, handleDisconnect_completionIds,
        completionIds_drain, List.nil_append]
      apply List.map_congr_left
      intro s _
      apply idOf_congr
      rw [drain_state]
  | tick =>
    unfold coreStep at heq
    injection heq with hpair
    injection hpair with h1 h2
    subst h1
    subst h2
    refine ⟨[], [], by simp, by simp, ?_⟩
    rw [send_heartbeat_completionIds]
    rfl

theorem idOf_ext_lt (st st1 : DState) (ext : List (Nat × String)) (s : Nat)
    (hext : st1.created = st.created ++ ext) (h : s < st.created.length) :
    idOf st1 s = idOf st s := by
  unfold idOf
  rw [hext, List.getElem?_append_left h]

theorem coreStep_created (st : DState) (e : CoreEvent) (st' : DState)
    (outs : List Output) (heq : coreStep st e = Except.ok (st', outs)) :
    st'.created = st.created ++ eventCreated e := by
  obtain ⟨d, ext, h1, h2, h3⟩ := coreStep_accounting st e st' outs heq
  cases e with
  | newItem id payload =>
    unfold coreStep at heq
    injection heq with hpair
    injection hpair with ha hb
    subst ha
    obtain ⟨d2, hd1, hd2, hd3⟩ := on_generator_pollin_accounting st id payload
    exact hd2
  | register identity stride offset pol name =>
    unfold coreStep at heq
    injection heq with hpair
    have hst' : st' = (send_pending_completions none
        (handleRegister st identity stride offset pol name)).1 := by rw [hpair]
    rw [hst', drain_state]
    simp only [eventCreated]
    rw [List.append_nil, handleRegister_created]
  | complete identity id =>
    unfold coreStep at heq
    simp only at heq
    cases hc : handleComplete st identity id with
    | error e0 =>
      rw [hc] at heq
      simp at heq
    | ok pr =>
      obtain ⟨st1, outs1⟩ := pr
      rw [hc] at heq
      simp only at heq
      injection heq with hpair
      injection hpair with ha hb
      subst ha
      obtain ⟨hcre, _, _⟩ := handleComplete_ok_facts st identity id st1 outs1 hc
      rw [drain_state]
      simp only [eventCreated]
      rw [List.append_nil, hcre]
  | disconnect identity =>
    unfold coreStep at heq
    injection heq with hpair
    injection hpair with ha hb
    subst ha
    rw [drain_state]
    simp only [eventCreated]
    rw [List.append_nil, handleDisconnect_created]
  | tick =>
    unfold coreStep at heq
    injection heq with hpair
    injection hpair with ha hb
    subst ha
    simp [eventCreated]

theorem coreRun_created (evs : List CoreEvent) (st st' : DState)
    (outs : List Output) (heq : coreRun st evs = Except.ok (st', outs)) :
    st'.created = st.created ++ createdOf evs := by
  induction evs generalizing st outs with
  | nil =>
    unfold coreRun at heq
    injection heq with hpair
    injection hpair with h1 h2
    subst h1
    simp [createdOf]
  | cons e es ih =>
    unfold coreRun at heq
    cases hstep : coreStep st e with
    | error e0 =>
      rw [hstep] at heq
      simp at heq
    | ok pr =>
      obtain ⟨st1, outs1⟩ := pr
      rw [hstep] at heq
      simp only at heq
      cases hrun : coreRun st1 es with
      | error e0 =>
        rw [hrun] at heq
        simp at heq
      | ok pr2 =>
        obtain ⟨st2, outs2⟩ := pr2
        rw [hrun] at heq
        simp only at heq
        injection heq with hpair
        injection hpair with h1 h2
        subst h1
        have hc1 := coreStep_created st e st1 outs1 hstep
        have hc2 := ih st1 outs2 hrun
        rw [hc2, hc1]
        cases e <;> simp [createdOf, eventCreated, List.filterMap_cons]

theorem sent_serial_lt (st : DState) (h : DInv st) (s : Nat) (hmem : s ∈ st.sent) :
    s < st.created.length := by
  obtain ⟨⟨_, hg, _, _⟩, hlnil⟩ := h
  by_contra hcon
  push_neg at hcon
  have hc := ((hg s).2 hcon).1
  unfold cnt at hc
  have := List.count_pos_iff.mpr hmem
  omega

/-- Along a successful run, the IDs handed back to the producer are
exactly the drained-serial history mapped to its item IDs. -/
theorem coreRun_accounting (evs : List CoreEvent) (st st' : DState)
    (outs : List Output) (heq : coreRun st evs = Except.ok (st', outs))
    (hinv : DInv st) :
    st'.sent.map (idOf st') = st.sent.map (idOf st) ++ completionIds outs := by
  induction evs generalizing st outs with
  | nil =>
    unfold coreRun at heq
    injection heq with hpair
    injection hpair with h1 h2
    subst h1
    subst h2
    simp [completionIds]
  | cons e es ih =>
    unfold coreRun at heq
    cases hstep : coreStep st e with
    | error e0 =>
      rw [hstep] at heq
      simp at heq
    | ok pr =>
      obtain ⟨st1, outs1⟩ := pr
      rw [hstep] at heq
      simp only at heq
      cases hrun : coreRun st1 es with
      | error e0 =>
        rw [hrun] at heq
        simp at heq
      | ok pr2 =>
        obtain ⟨st2, outs2⟩ := pr2
        rw [hrun] at heq
        simp only at heq
        injection heq with hpair
        injection hpair with h1 h2
        subst h1
        subst h2
        have hinv1 : DInv st1 := coreStep_DInv st e st1 outs1 hstep hinv
        obtain ⟨d, ext, ha1, ha2, ha3⟩ := coreStep_accounting st e st1 outs1 hstep
        have hrec := ih st1 outs2 hrun hinv1
        rw [completionIds_append, hrec, ha1]
        rw [List.map_append, ← ha3]
        have hstable : st.sent.map (idOf st1) = st.sent.map (idOf st) := by
          apply List.map_congr_left
          intro s hmem
          exact idOf_ext_lt st st1 ext s ha2 (sent_serial_lt st hinv s hmem)
        rw [hstable, List.append_assoc]

theorem allQueuesEmpty_occAll (st : DState) (h : allQueuesEmpty st = true)
    (s : Nat) :
    occAll st.workers s = 0 := by
  unfold allQueuesEmpty at h
  rw [List.all_eq_true] at h
  unfold occAll
  apply List.sum_eq_zero
  intro x hx
  rcases List.mem_map.mp hx with ⟨kw, hkw, hxeq⟩
  have := h kw hkw
  rw [Bool.and_eq_true] at this
  obtain ⟨h1, h2⟩ := this
  rw [List.isEmpty_iff] at h1 h2
  rw [← hxeq]
  unfold Worker.occ
  rw [h1, h2]
  rfl

theorem range_map_get (l : List (Nat × String)) :
    (List.range l.length).map (fun s => ((l[s]?).getD ((0 : Nat), "")).1)
      = l.map Prod.fst := by
  induction l with
  | nil => rfl
  | cons a t ih =>
    rw [List.length_cons, List.range_succ_eq_map, List.map_cons, List.map_map,
      List.map_cons]
    congr 1
    · simp
    · rw [← ih]
      apply List.map_congr_left
      intro s _
      simp [Function.comp, List.getElem?_cons_succ]

theorem range_map_idOf (st : DState) :
    (List.range st.created.length).map (idOf st) = st.created.map Prod.fst :=
  range_map_get st.created

theorem producedIds_createdOf (evs : List CoreEvent) :
    (createdOf evs).map Prod.fst = producedIds evs := by
  induction evs with
  | nil => rfl
  | cons e es ih =>
    cases e <;> simp [createdOf, producedIds, List.filterMap_cons] at * <;> exact ih

/-- Claim C1: completion conservation.  For every sequence of producer
items and every interleaving of worker COMPLETE messages and worker
disconnects (any successful run of the dispatcher core), once no worker
queue holds a reference any more, every item serial ever constructed has
been written to the completion ledger exactly once (the drained history
is a permutation of the serial range), and hence the multiset of IDs
delivered back to the producer equals the multiset of item IDs
received. -/
theorem claim_C1_completion_conservation (evs : List CoreEvent) (st : DState)
    (outs : List Output)
    (hrun : coreRun initState evs = Except.ok (st, outs))
    (hempty : allQueuesEmpty st = true) :
    List.Perm (completionIds outs) (producedIds evs)
    ∧ List.Perm st.sent (List.range st.created.length) := by
  have hinv := coreRun_init_DInv evs st outs hrun
  have hcnt : ∀ s, st.sent.count s = if s < st.created.length then 1 else 0 := by
    intro s
    obtain ⟨⟨hsor, hg, hwm, hpb⟩, hlnil⟩ := hinv
    obtain ⟨hlt, hge⟩ := hg s
    have hocc := allQueuesEmpty_occAll st hempty s
    by_cases h : s < st.created.length
    · rw [if_pos h]
      have h2 := hlt h
      unfold cnt at h2
      rw [hlnil, hocc] at h2
      simp at h2
      omega
    · rw [if_neg h]
      push_neg at h
      have h2 := (hge h).1
      unfold cnt at h2
      omega
  have hperm2 : List.Perm st.sent (List.range st.created.length) := by
    rw [List.perm_iff_count]
    intro a
    rw [hcnt a]
    by_cases h : a < st.created.length
    · rw [if_pos h]
      exact (List.count_eq_one_of_mem (List.nodup_range _)
        (List.mem_range.mpr h)).symm
    · rw [if_neg h]
      exact (List.count_eq_zero_of_not_mem
        (fun hm => h (List.mem_range.mp hm))).symm
  have hmap := coreRun_accounting evs initState st outs hrun initState_DInv
  have hmap2 : st.sent.map (idOf st) = completionIds outs := by
    simpa [initState] using hmap
  have hperm3 : List.Perm (st.sent.map (idOf st))
      ((List.range st.created.length).map (idOf st)) := hperm2.map (idOf st)
  rw [range_map_idOf] at hperm3
  have hcre := coreRun_created evs initState st outs hrun
  have hprodeq : st.created.map Prod.fst = producedIds evs := by
    rw [hcre, ← producedIds_createdOf evs]
    simp [initState]
  rw [hmap2, hprodeq] at hperm3
  exact ⟨hperm3, hperm2⟩

theorem claim_C1_completion_conservation_witness :
    (coreRun initState c1evs = Except.ok (c1st, c1outs)
      ∧ allQueuesEmpty c1st = true)
    ∧ (List.Perm (completionIds c1outs) (producedIds c1evs)
      ∧ List.Perm c1st.sent (List.range c1st.created.length)) :=
  ⟨⟨by rfl, by rfl⟩,
   claim_C1_completion_conservation c1evs c1st c1outs (by rfl) (by rfl)⟩

/-! ### Claim C2 infrastructure: WORK_ITEM frames respect the predicate -/

theorem mem_drain_outs (st : DState) (o : Output)
    (h : o ∈ (send_pending_completions none st).2) :
    ∃ i, o = Output.completion i := by
  rw [send_pending_completions_none] at h
  rcases List.mem_map.mp h with ⟨s, _, hso⟩
  exact ⟨idOf st s, hso.symm⟩

theorem mem_heartbeat_outs (st : DState) (o : Output)
    (h : o ∈ send_heartbeat st) :
    ∃ k, o = Output.heartbeat k := by
  unfold send_heartbeat at h
  rcases List.mem_filterMap.mp h with ⟨kw, _, hso⟩
  by_cases he : kw.2.outstanding_items.isEmpty
  · rw [if_pos he] at hso
    injection hso with h1
    exact ⟨kw.1, h1.symm⟩
  · rw [if_neg he] at hso
    exact absurd hso (by simp)

theorem intakeOne_workItem_guard (t id : Nat) (p : String) (st : DState)
    (k : String) (h : (intakeOne t id p st k).2 ≠ []) :
    ∃ w, mapLookup k st.workers = some w ∧ w.wants_item id = true
      ∧ (intakeOne t id p st k).2 = [Output.workItem k id p] := by
  cases hl : mapLookup k st.workers with
  | none => rw [intakeOne_of_lookup_none t id p st k hl] at h; exact absurd rfl h
  | some w =>
    by_cases hw : w.wants_item id = true
    · refine ⟨w, rfl, hw, ?_⟩
      by_cases hpol : w.queue_policy = WorkerQueuePolicy.PrebufferOne
      · by_cases hout : w.outstanding_items = []
        · rw [intakeOne_eq_prebuffer_idle t id p st k w hl hw hpol hout]
        · rw [intakeOne_eq_prebuffer_busy t id p st k w hl hw hpol hout] at h ⊢
          exact absurd rfl h
      · by_cases hout : w.outstanding_items = []
        · rw [intakeOne_eq_plain_idle t id p st k w hl hw hpol hout]
        · by_cases hskip : w.queue_policy = WorkerQueuePolicy.Skip
          · rw [intakeOne_eq_skip_busy t id p st k w hl hw hskip hout] at h
            exact absurd rfl h
          · rw [intakeOne_eq_async_busy t id p st k w hl hw hpol hskip hout] at h
            exact absurd rfl h
    · rw [intakeOne_of_nowant t id p st k w hl (by simpa using hw)] at h
      exact absurd rfl h

theorem intakeOne_predicate_preserved (t id : Nat) (p : String) (st : DState)
    (k k' : String) (w' : Worker)
    (hlk : mapLookup k' (intakeOne t id p st k).1.workers = some w') :
    ∃ w0, mapLookup k' st.workers = some w0
      ∧ w'.stride = w0.stride ∧ w'.offset = w0.offset := by
  by_cases hk' : k' = k
  · subst hk'
    cases hl : mapLookup k' st.workers with
    | none =>
      rw [intakeOne_of_lookup_none t id p st k' hl] at hlk
      rw [hl] at hlk
      exact absurd hlk (by simp)
    | some w =>
      by_cases hw : w.wants_item id = true
      · have hl2 : mapLookup k' (releaseList
            ({ st with workers := mapUpdate k' ({ w with waiting_items := [] }) st.workers })
            w.waiting_items).workers = some ({ w with waiting_items := [] }) := by
          rw [releaseList_workers]
          exact mapLookup_mapUpdate_self k' _ w st.workers hl
        by_cases hpol : w.queue_policy = WorkerQueuePolicy.PrebufferOne
        · by_cases hout : w.outstanding_items = []
          · rw [intakeOne_eq_prebuffer_idle t id p st k' w hl hw hpol hout] at hlk
            simp only at hlk
            rw [mapLookup_mapUpdate_self k' _ _ _ hl2] at hlk
            cases hlk
            exact ⟨w, rfl, rfl, rfl⟩
          · rw [intakeOne_eq_prebuffer_busy t id p st k' w hl hw hpol hout] at hlk
            simp only at hlk
            rw [mapLookup_mapUpdate_self k' _ _ _ hl2] at hlk
            cases hlk
            exact ⟨w, rfl, rfl, rfl⟩
        · by_cases hout : w.outstanding_items = []
          · rw [intakeOne_eq_plain_idle t id p st k' w hl hw hpol hout] at hlk
            simp only at hlk
            rw [mapLookup_mapUpdate_self k' _ w _ hl] at hlk
            cases hlk
            exact ⟨w, rfl, rfl, rfl⟩
          · by_cases hskip : w.queue_policy = WorkerQueuePolicy.Skip
            · rw [intakeOne_eq_skip_busy t id p st k' w hl hw hskip hout] at hlk
              simp only at hlk
              rw [hl] at hlk
              injection hlk with hww
              exact ⟨w, rfl, by rw [← hww], by rw [← hww]⟩
            · rw [intakeOne_eq_async_busy t id p st k' w hl hw hpol hskip hout] at hlk
              simp only at hlk
              rw [mapLookup_mapUpdate_self k' _ w _ hl] at hlk
              cases hlk
              exact ⟨w, rfl, rfl, rfl⟩
      · rw [intakeOne_of_nowant t id p st k' w hl (by simpa using hw)] at hlk
        simp only at hlk
        rw [hl] at hlk
        injection hlk with hww
        exact ⟨w, rfl, by rw [← hww], by rw [← hww]⟩
  · rw [intakeOne_lookup_ne t id p st k k' hk'] at hlk
    exact ⟨w', hlk, rfl, rfl⟩

theorem intakeLoop_predicate_preserved (t id : Nat) (p : String)
    (ks : List String) (st : DState) (k' : String) (w' : Worker)
    (hlk : mapLookup k' (intakeLoop t id p st ks).1.workers = some w') :
    ∃ w0, mapLookup k' st.workers = some w0
      ∧ w'.stride = w0.stride ∧ w'.offset = w0.offset := by
  induction ks generalizing st w' with
  | nil => exact ⟨w', hlk, rfl, rfl⟩
  | cons k ks ih =>
    have hlk2 : mapLookup k' (intakeLoop t id p (intakeOne t id p st k).1 ks).1.workers
        = some w' := hlk
    rcases ih _ _ hlk2 with ⟨w1, hw1, hs1, ho1⟩
    rcases intakeOne_predicate_preserved t id p st k k' w1 hw1 with ⟨w0, hw0, hs0, ho0⟩
    exact ⟨w0, hw0, hs1.trans hs0, ho1.trans ho0⟩

theorem intakeLoop_workItem (t id : Nat) (p : String) (ks : List String)
    (st : DState) (k : String) (i : Nat) (q : String)
    (hmem : Output.workItem k i q ∈ (intakeLoop t id p st ks).2) :
    i = id ∧ q = p
      ∧ ∃ w0, mapLookup k st.workers = some w0 ∧ w0.wants_item id = true := by
  induction ks generalizing st with
  | nil => simp [intakeLoop] at hmem
  | cons k0 ks ih =>
    have hmem2 : Output.workItem k i q ∈ (intakeOne t id p st k0).2
        ++ (intakeLoop t id p (intakeOne t id p st k0).1 ks).2 := hmem
    rcases List.mem_append.mp hmem2 with h1 | h2
    · have hne : (intakeOne t id p st k0).2 ≠ [] := by
        intro hc
        rw [hc] at h1
        exact absurd h1 (by simp)
      rcases intakeOne_workItem_guard t id p st k0 hne with ⟨w, hw, hwant, hout⟩
      rw [hout] at h1
      rcases List.mem_singleton.mp h1 with h3
      injection h3 with hk0 hi hq
      subst hk0
      subst hi
      subst hq
      exact ⟨rfl, rfl, w, hw, hwant⟩
    · rcases ih _ h2 with ⟨hi, hq, w1, hw1, hwant1⟩
      rcases intakeOne_predicate_preserved t id p st k0 k w1 hw1
        with ⟨w0, hw0, hs0, ho0⟩
      refine ⟨hi, hq, w0, hw0, ?_⟩
      unfold Worker.wants_item at hwant1 ⊢
      rw [← hs0, ← ho0]
      exact hwant1

theorem mem_handleDisconnect_outs (st : DState) (identity : String) (o : Output)
    (h : o ∈ (handleDisconnect st identity).2) :
    (∃ m, o = Output.logInfo m) ∨ (∃ m, o = Output.logError m) := by
  unfold handleDisconnect at h
  cases hl : mapLookup identity st.workers with
  | none =>
    rw [hl] at h
    simp only at h
    rcases List.mem_cons.mp h with h1 | h2
    · exact Or.inl ⟨_, h1⟩
    · rcases List.mem_singleton.mp h2 with h3
      exact Or.inr ⟨_, h3⟩
  | some old =>
    rw [hl] at h
    simp only at h
    rcases List.mem_singleton.mp h with h1
    exact Or.inl ⟨_, h1⟩

theorem handleComplete_workItem (st : DState) (identity : String) (id : Nat)
    (st1 : DState) (outs1 : List Output)
    (heq : handleComplete st identity id = Except.ok (st1, outs1))
    (hwm : waitMatch st)
    (k : String) (i : Nat) (q : String)
    (hmem : Output.workItem k i q ∈ outs1)
    (w : Worker) (hlk : mapLookup k st1.workers = some w) :
    i % w.stride = w.offset := by
  unfold handleComplete at heq
  cases hl : mapLookup identity st.workers with
  | none => rw [hl] at heq; simp at heq
  | some c =>
    rw [hl] at heq
    simp only at heq
    cases herase : eraseFirstIdMatch st id c.outstanding_items with
    | none => rw [herase] at heq; simp at heq
    | some pr =>
      obtain ⟨removed, rest⟩ := pr
      rw [herase] at heq
      simp only at heq
      cases hwait : c.waiting_items with
      | nil =>
        rw [hwait] at heq
        simp only at heq
        injection heq with hpair
        injection hpair with h1 h2
        subst h2
        simp at hmem
      | cons s0 ws =>
        rw [hwait] at heq
        simp only at heq
        injection heq with hpair
        injection hpair with h1 h2
        subst h2
        rcases List.mem_singleton.mp hmem with h3
        injection h3 with hk hi hq
        subst hk
        subst hi
        have hlR : mapLookup k (releaseList
            ({ st with workers := mapUpdate k ({ c with outstanding_items := rest }) st.workers })
            [removed]).workers = some ({ c with outstanding_items := rest }) := by
          rw [releaseList_workers]
          exact mapLookup_mapUpdate_self _ _ c _ hl
        rw [hwait] at hlR
        rw [← h1] at hlk
        simp only at hlk
        rw [mapLookup_mapUpdate_self _ _ _ _ hlR] at hlk
        cases hlk
        rw [idOf_releaseList]
        have hs0 : s0 ∈ c.waiting_items := by
          rw [hwait]
          exact List.mem_cons_self _ _
        exact hwm k c hl s0 hs0

/-- Claim C2: predicate correctness.  In any reachable state, every
WORK_ITEM frame the broker transmits in the next transition — at intake
while the worker is idle, or as a promotion after a COMPLETE — carries
an item ID `n` with `n mod stride = offset` for the registered
parameters of the receiving worker. -/
theorem claim_C2_predicate_correctness (evs : List CoreEvent) (st : DState)
    (outs : List Output) (hrun : coreRun initState evs = Except.ok (st, outs))
    (e : CoreEvent) (st' : DState) (outs' : List Output)
    (hstep : coreStep st e = Except.ok (st', outs'))
    (k : String) (id : Nat) (p : String)
    (hmem : Output.workItem k id p ∈ outs')
    (w : Worker) (hlk : mapLookup k st'.workers = some w) :
    id % w.stride = w.offset := by
  have hinv := coreRun_init_DInv evs st outs hrun
  obtain ⟨⟨hsor, hg, hwm, hpb⟩, hlnil⟩ := hinv
  cases e with
  | newItem i0 p0 =>
    unfold coreStep at hstep
    injection hstep with hpair
    injection hpair with h1 h2
    subst h1
    subst h2
    rcases List.mem_append.mp hmem with hin | hdrain
    · rcases intakeLoop_workItem _ _ _ _ _ _ _ _ hin with ⟨hi, hq, w0, hw0, hwant⟩
      subst hi
      rw [drain_state] at hlk
      simp only at hlk
      rw [releaseList_workers] at hlk
      rcases intakeLoop_predicate_preserved _ _ _ _ _ _ _ hlk with ⟨w1, hw1, hs1, ho1⟩
      rw [hw0] at hw1
      injection hw1 with hww
      rw [hs1, ho1, ← hww]
      exact wants_item_eq w0 _ hwant
    · rcases mem_drain_outs _ _ hdrain with ⟨i2, hi2⟩
      exact absurd hi2 (by simp)
  | register identity stride offset pol name =>
    unfold coreStep at hstep
    injection hstep with hpair
    have houts : outs' = (send_pending_completions none
        (handleRegister st identity stride offset pol name)).2 := by rw [hpair]
    rw [houts] at hmem
    rcases mem_drain_outs _ _ hmem with ⟨i2, hi2⟩
    exact absurd hi2 (by simp)
  | complete identity i0 =>
    unfold coreStep at hstep
    simp only at hstep
    cases hc : handleComplete st identity i0 with
    | error e0 => rw [hc] at hstep; simp at hstep
    | ok pr =>
      obtain ⟨st1, outs1⟩ := pr
      rw [hc] at hstep
      simp only at hstep
      injection hstep with hpair
      injection hpair with h1 h2
      subst h1
      subst h2
      rcases List.mem_append.mp hmem with hin | hdrain
      · have hlk1 : mapLookup k st1.workers = some w := by
          rw [drain_state] at hlk
          simpa using hlk
        exact handleComplete_workItem st identity i0 st1 outs1 hc hwm k id p hin w hlk1
      · rcases mem_drain_outs _ _ hdrain with ⟨i2, hi2⟩
        exact absurd hi2 (by simp)
  | disconnect identity =>
    unfold coreStep at hstep
    injection hstep with hpair
    injection hpair with h1 h2
    subst h2
    rcases List.mem_append.mp hmem with hin | hdrain
    · rcases mem_handleDisconnect_outs _ _ _ hin with ⟨m, hm⟩ | ⟨m, hm⟩ <;>
        exact absurd hm (by simp)
    · rcases mem_drain_outs _ _ hdrain with ⟨i2, hi2⟩
      exact absurd hi2 (by simp)
  | tick =>
    unfold coreStep at hstep
    injection hstep with hpair
    injection hpair with h1 h2
    subst h2
    rcases mem_heartbeat_outs _ _ hmem with ⟨k2, hk2⟩
    exact absurd hk2 (by simp)

theorem claim_C2_predicate_correctness_witness :
    (coreRun initState c2evs = Except.ok (c2st, [])
      ∧ coreStep c2st (CoreEvent.newItem 3 "x") = Except.ok (c2st', [Output.workItem "a" 3 "x"])
      ∧ Output.workItem "a" 3 "x" ∈ [Output.workItem "a" 3 "x"]
      ∧ mapLookup "a" c2st'.workers = some ({ c2w with outstanding_items := [0] }))
    ∧ 3 % ({ c2w with outstanding_items := [0] } : Worker).stride
        = ({ c2w with outstanding_items := [0] } : Worker).offset :=
  ⟨⟨by rfl, by rfl, List.mem_singleton_self _, by rfl⟩,
   claim_C2_predicate_correctness c2evs c2st [] (by rfl)
     (CoreEvent.newItem 3 "x") c2st' [Output.workItem "a" 3 "x"] (by rfl)
     "a" 3 "x" (List.mem_singleton_self _)
     ({ c2w with outstanding_items := [0] }) (by rfl)⟩

/-! ### Claim C3: worker-table iteration order on fan-out -/

/-- Claim C3, counterexample.  Worker "b" registers before worker "a",
both predicates match item 0, yet the broker sends the WORK_ITEM to "a"
first and to "b" second: `workers_` is a `std::map`, so the fan-out loop
iterates in ascending identity order, not in registration order.  This
falsifies the claim that the earlier-registered worker receives the item
first. -/
theorem claim_C3_counterexample :
    coreRun initState c3evs
      = Except.ok (c3st, [Output.workItem "a" 0 "", Output.workItem "b" 0 ""])
    ∧ workItemIdentities [Output.workItem "a" 0 "", Output.workItem "b" 0 ""]
      = ["a", "b"] := by
  constructor
  · rfl
  · rfl

theorem workItemIdentities_append (a b : List Output) :
    workItemIdentities (a ++ b) = workItemIdentities a ++ workItemIdentities b := by
  unfold workItemIdentities
  rw [List.filterMap_append]

theorem workItemIdentities_drain (st : DState) :
    workItemIdentities (send_pending_completions none st).2 = [] := by
  rw [send_pending_completions_none]
  unfold workItemIdentities
  rw [List.filterMap_map]
  apply List.filterMap_eq_nil_iff.mpr
  intro s _
  rfl

theorem intakeLoop_workItemIdentities_sublist (t id : Nat) (p : String)
    (ks : List String) (st : DState) :
    (workItemIdentities (intakeLoop t id p st ks).2).Sublist ks := by
  induction ks generalizing st with
  | nil => simp [intakeLoop, workItemIdentities]
  | cons k ks ih =>
    show (workItemIdentities ((intakeOne t id p st k).2
      ++ (intakeLoop t id p (intakeOne t id p st k).1 ks).2)).Sublist (k :: ks)
    rw [workItemIdentities_append]
    rcases intakeOne_outs t id p st k with h | h <;> rw [h]
    · exact List.Sublist.cons _ (ih _)
    · exact List.Sublist.cons₂ _ (ih _)

/-- Claim C3, amended.  On intake of a new producer item the dispatcher
iterates the worker table in ascending lexicographic order of the
transport identity (`std::map` key order), independently of registration
order: the identities addressed by the WORK_ITEM frames of one intake
are strictly increasing. -/
theorem claim_C3_map_order (evs : List CoreEvent) (st : DState)
    (outs : List Output) (hrun : coreRun initState evs = Except.ok (st, outs))
    (id : Nat) (p : String) (st' : DState) (outs' : List Output)
    (hstep : coreStep st (CoreEvent.newItem id p) = Except.ok (st', outs')) :
    List.Pairwise (fun a b => strLt a b = true) (workItemIdentities outs') := by
  have hinv := coreRun_init_DInv evs st outs hrun
  obtain ⟨⟨hsor, _, _, _⟩, _⟩ := hinv
  unfold coreStep at hstep
  injection hstep with hpair
  injection hpair with h1 h2
  subst h2
  rw [workItemIdentities_append, workItemIdentities_drain, List.append_nil]
  have hsub := intakeLoop_workItemIdentities_sublist st.created.length id p
    (List.map Prod.fst
      ({ st with created := st.created ++ [(id, p)] } : DState).workers)
    ({ st with created := st.created ++ [(id, p)] })
  have hsorted : (List.map Prod.fst
      ({ st with created := st.created ++ [(id, p)] } : DState).workers).Pairwise
        (fun a b => strLt a b = true) := by
    rw [List.pairwise_map]
    exact hsor
  exact hsorted.sublist hsub

theorem claim_C3_map_order_witness :
    (coreRun initState c3regs = Except.ok (c3regSt, [])
      ∧ coreStep c3regSt (CoreEvent.newItem 0 "")
          = Except.ok (c3st, [Output.workItem "a" 0 "", Output.workItem "b" 0 ""]))
    ∧ List.Pairwise (fun a b => strLt a b = true)
        (workItemIdentities [Output.workItem "a" 0 "", Output.workItem "b" 0 ""]) :=
  ⟨⟨by rfl, by rfl⟩,
   claim_C3_map_order c3regs c3regSt [] (by rfl) 0 "" c3st
     [Output.workItem "a" 0 "", Output.workItem "b" 0 ""] (by rfl)⟩

/-! ### Claim C4: fatality of bad worker frames -/

/-- Claim C4, counterexample.  A well-formed COMPLETE frame from a peer
whose identity is not in the worker table is fatal: `workers_.at`
(line 226) throws `std::out_of_range` out of the event handler instead
of logging and continuing with unchanged state. -/
theorem claim_C4_counterexample :
    on_worker_pollin initState ["w", "", "x", "COMPLETE 5"]
      = Except.error Err.unknownWorker := by rfl

/-- Claim C4, amended.  Inbound worker frames are not uniformly
tolerated: a COMPLETE from an unknown identity throws out of the event
loop (`workers_.at`), a REGISTER that fails to parse aborts on
`assert(!s.fail())`, and a COMPLETE whose ID is not among the sender's
outstanding items aborts on `assert(it != ...)`. -/
theorem claim_C4_bad_frames_fatal :
    (∀ st : DState, mapLookup "" st.workers = none →
      on_worker_pollin st ["w", "", "x", "COMPLETE 5"]
        = Except.error Err.unknownWorker)
    ∧ (∀ st : DState,
      on_worker_pollin st ["w", "", "x", "REGISTER junk"]
        = Except.error Err.assertParse)
    ∧ (∀ st : DState, ∀ c : Worker, mapLookup "" st.workers = some c →
      eraseFirstIdMatch st 5 c.outstanding_items = none →
      on_worker_pollin st ["w", "", "x", "COMPLETE 5"]
        = Except.error Err.assertOutstanding) := by
  refine ⟨?_, ?_, ?_⟩
  · intro st h
    have hp : (["w", "", "x", "COMPLETE 5"].get? 3) = some "COMPLETE 5" := by rfl
    have hr : strStarts "COMPLETE 5" "REGISTER " = false := by rfl
    have hc : strStarts "COMPLETE 5" "COMPLETE " = true := by rfl
    simp only [on_worker_pollin, hp, hr, hc, h]
    rfl
  · intro st
    rfl
  · intro st c h1 h2
    have hp : (["w", "", "x", "COMPLETE 5"].get? 3) = some "COMPLETE 5" := by rfl
    have hr : strStarts "COMPLETE 5" "REGISTER " = false := by rfl
    have hc : strStarts "COMPLETE 5" "COMPLETE " = true := by rfl
    have hb : parseCompleteBody "COMPLETE 5" = some 5 := by rfl
    simp only [on_worker_pollin, handleComplete, hp, hr, hc, hb, h1, h2]
    rfl

theorem claim_C4_bad_frames_fatal_witness :
    (mapLookup "" initState.workers = none
      ∧ on_worker_pollin initState ["w", "", "x", "COMPLETE 5"]
          = Except.error Err.unknownWorker)
    ∧ on_worker_pollin initState ["w", "", "x", "REGISTER junk"]
        = Except.error Err.assertParse :=
  ⟨⟨by rfl, claim_C4_bad_frames_fatal.1 initState (by rfl)⟩,
   claim_C4_bad_frames_fatal.2.1 initState⟩

/-! ### Claim C5: drain atomicity on producer send failure -/

/-- Claim C5, counterexample.  A drain whose very first producer send
throws still clears the whole ledger (`completed_items_.clear()` on
line 151 sits after the catch and runs unconditionally), so the ID is
lost: the failed drain emits only the error log and the next drain
emits nothing. -/
theorem claim_C5_counterexample :
    (send_pending_completions (some 0) c5st).1.ledger = []
    ∧ (send_pending_completions (some 0) c5st).2 = [Output.logError "zmq send"]
    ∧ (send_pending_completions none
        (send_pending_completions (some 0) c5st).1).2 = [] :=
  ⟨rfl, rfl, rfl⟩

/-- Claim C5, amended.  If the producer send fails after `k` of the
ledger's entries went out, the drain still clears the entire ledger:
only the first `k` completions are ever transmitted, a send error is
logged, and the next drain retransmits nothing — the unsent IDs are
silently dropped, not retried. -/
theorem claim_C5_drain_clears_unconditionally (st : DState) (k : Nat)
    (h : k < st.ledger.length) :
    (send_pending_completions (some k) st).1.ledger = []
    ∧ (send_pending_completions (some k) st).2
        = (st.ledger.take k).map (fun s => Output.completion (idOf st s))
          ++ [Output.logError "zmq send"]
    ∧ (send_pending_completions none
        (send_pending_completions (some k) st).1).2 = [] := by
  refine ⟨rfl, ?_, rfl⟩
  simp only [send_pending_completions, Option.getD_some]
  rw [if_pos h]

theorem claim_C5_drain_clears_unconditionally_witness :
    0 < c5st.ledger.length
    ∧ ((send_pending_completions (some 0) c5st).1.ledger = []
    ∧ (send_pending_completions (some 0) c5st).2
        = (c5st.ledger.take 0).map (fun s => Output.completion (idOf c5st s))
          ++ [Output.logError "zmq send"]
    ∧ (send_pending_completions none
        (send_pending_completions (some 0) c5st).1).2 = []) :=
  ⟨by decide, claim_C5_drain_clears_unconditionally c5st 0 (by decide)⟩

/-! ### Claim C6: PrebufferOne policy -/

/-- Claim C6: a `PrebufferOne` worker's `waiting_items` never exceeds
one entry after any reachable sequence of events, and while such a
worker is busy, intake of a matching item replaces the buffer with
exactly the new item (the previously buffered one is cleared first, on
lines 176-178), so the buffered item is always the newest matching
arrival. -/
theorem claim_C6_prebuffer_one :
    (∀ evs st outs, coreRun initState evs = Except.ok (st, outs) →
      ∀ k w, mapLookup k st.workers = some w →
        w.queue_policy = WorkerQueuePolicy.PrebufferOne →
        w.waiting_items.length ≤ 1)
    ∧ (∀ t id p st k w, mapLookup k st.workers = some w →
        w.wants_item id = true →
        w.queue_policy = WorkerQueuePolicy.PrebufferOne →
        w.outstanding_items ≠ [] →
        mapLookup k (intakeOne t id p st k).1.workers
          = some { w with waiting_items := [t] }) := by
  constructor
  · intro evs st outs hrun k w hl hpol
    have hinv := coreRun_DInv evs initState st outs hrun initState_DInv
    exact hinv.1.2.2.2 k w hl hpol
  · intro t id p st k w hl hw hpol hout
    rw [intakeOne_eq_prebuffer_busy t id p st k w hl hw hpol hout]
    simp only [releaseList_workers]
    exact mapLookup_mapUpdate_self k _ _ _
      (mapLookup_mapUpdate_self k _ w _ hl)

theorem claim_C6_prebuffer_one_witness :
    (coreRun initState c6evs = Except.ok (c6st, c6outs)
     ∧ mapLookup "a" c6st.workers = some c6w
     ∧ c6w.queue_policy = WorkerQueuePolicy.PrebufferOne
     ∧ c6w.waiting_items.length ≤ 1)
    ∧ (c6w.wants_item 7 = true
     ∧ c6w.outstanding_items ≠ []
     ∧ mapLookup "a" (intakeOne 3 7 "x" c6st "a").1.workers
         = some { c6w with waiting_items := [3] }) :=
  ⟨⟨by rfl, by rfl, by rfl,
    claim_C6_prebuffer_one.1 c6evs c6st c6outs (by rfl) "a" c6w (by rfl) (by rfl)⟩,
   ⟨by rfl, by simp [c6w, c6st, c6evs, coreRun, coreStep, mapLookup],
    claim_C6_prebuffer_one.2 3 7 "x" c6st "a" c6w (by rfl) (by rfl) (by rfl)
      (by simp [c6w, c6st, c6evs, coreRun, coreStep, mapLookup])⟩⟩

/-! ### Claim C7: COMPLETE handling -/

theorem eraseFirstIdMatch_decomp (st : DState) (id : Nat) (pre post : List Nat)
    (sRem : Nat) (hpre : ∀ s ∈ pre, idOf st s ≠ id) (hid : idOf st sRem = id) :
    eraseFirstIdMatch st id (pre ++ sRem :: post) = some (sRem, pre ++ post) := by
  induction pre with
  | nil =>
    simp only [List.nil_append, eraseFirstIdMatch, if_pos hid]
  | cons a pre' ih =>
    have ha : idOf st a ≠ id := hpre a (List.mem_cons_self a pre')
    have ih' := ih (fun s hs => hpre s (List.mem_cons_of_mem a hs))
    simp only [List.cons_append, eraseFirstIdMatch, if_neg ha, List.append_eq, ih']
    rfl

/-- Claim C7: a COMPLETE with a matching ID from a registered worker
removes exactly the first outstanding entry bearing that ID
(find_if/erase, lines 233-237); then, if the waiting queue is
non-empty, its front item is popped, appended to `outstanding_items`,
and a WORK_ITEM frame for it is transmitted — waiting items are
dispatched in FIFO arrival order. -/
theorem claim_C7_complete_handling (st : DState) (identity : String) (id : Nat)
    (c : Worker) (pre post : List Nat) (sRem : Nat)
    (hl : mapLookup identity st.workers = some c)
    (hdec : c.outstanding_items = pre ++ sRem :: post)
    (hpre : ∀ s ∈ pre, idOf st s ≠ id) (hid : idOf st sRem = id) :
    (c.waiting_items = [] →
      handleComplete st identity id
        = Except.ok
            (releaseList { st with workers := mapUpdate identity { c with outstanding_items := pre ++ post } st.workers } [sRem], []))
    ∧ (∀ s ws, c.waiting_items = s :: ws →
      handleComplete st identity id
        = Except.ok
            (let st2 := releaseList { st with workers := mapUpdate identity { c with outstanding_items := pre ++ post } st.workers } [sRem]
             ({ st2 with workers := mapUpdate identity { c with waiting_items := ws, outstanding_items := (pre ++ post) ++ [s] } st2.workers },
              [Output.workItem identity (idOf st2 s) (payloadOf st2 s)]))) := by
  have he : eraseFirstIdMatch st id c.outstanding_items = some (sRem, pre ++ post) := by
    rw [hdec]
    exact eraseFirstIdMatch_decomp st id pre post sRem hpre hid
  constructor
  · intro hwait
    simp only [handleComplete, hl, he, hwait]
  · intro s ws hwait
    simp only [handleComplete, hl, he, hwait]

theorem claim_C7_complete_handling_witness :
    (mapLookup "w" c7st.workers = some c7w
     ∧ c7w.outstanding_items = [0] ++ 1 :: []
     ∧ (∀ s ∈ [0], idOf c7st s ≠ 11)
     ∧ idOf c7st 1 = 11
     ∧ c7w.waiting_items = 2 :: [])
    ∧ handleComplete c7st "w" 11
        = Except.ok
            (let st2 := releaseList { c7st with workers := mapUpdate "w" { c7w with outstanding_items := [0] ++ [] } c7st.workers } [1]
             ({ st2 with workers := mapUpdate "w" { c7w with waiting_items := [], outstanding_items := ([0] ++ []) ++ [2] } st2.workers },
              [Output.workItem "w" (idOf st2 2) (payloadOf st2 2)])) :=
  ⟨⟨by rfl, by rfl, by decide, by rfl, by rfl⟩,
   (claim_C7_complete_handling c7st "w" 11 c7w [0] [] 1 (by rfl) (by rfl)
      (by decide) (by rfl)).2 2 [] (by rfl)⟩

/-! ### Claim C8: REGISTER validation -/

/-- Claim C8, counterexample.  The frame `REGISTER 0 5 Skip n` passes
the only check performed (`assert(!s.fail())`, line 222) and installs a
worker record with `stride = 0` and `offset = 5 ≥ stride`; no range
validation happens, so the table can hold a worker for which
`id % stride` divides by zero during fan-out. -/
theorem claim_C8_counterexample :
    parseRegisterBody "REGISTER 0 5 Skip n"
      = some (0, 5, WorkerQueuePolicy.Skip, "n")
    ∧ (match on_worker_pollin initState ["w", "", "x", "REGISTER 0 5 Skip n"] with
       | Except.ok (st, _) => mapLookup "" st.workers
       | Except.error _ => none)
        = some { stride := 0, offset := 5, queue_policy := WorkerQueuePolicy.Skip, client_name := "n" } :=
  ⟨rfl, rfl⟩

/-- Claim C8, amended.  REGISTER processing validates only stream
extraction success, never the field ranges: whatever `(stride, offset)`
the frame carries — including `stride = 0` or `offset ≥ stride` — the
record is stored verbatim in the worker table, so the fan-out predicate
`id % stride == offset` is not protected against modulo by zero. -/
theorem claim_C8_register_unvalidated (st : DState) (identity : String)
    (stride offset : Nat) (pol : WorkerQueuePolicy) (name : String) :
    mapLookup identity (handleRegister st identity stride offset pol name).workers
      = some { stride := stride, offset := offset, queue_policy := pol,
               client_name := name } := by
  unfold handleRegister
  cases hl : mapLookup identity st.workers with
  | none =>
    exact mapLookup_mapInsert_self identity _ st.workers
  | some old =>
    simp only [releaseList_workers]
    exact mapLookup_mapUpdate_self identity _ old st.workers hl

/-! ### Claim C9: heartbeat gating -/

/-- Claim C9: the heartbeat sweep (lines 133-141) tests only
`outstanding_items.empty()` — the timing condition is an unimplemented
TODO (line 137) — so an idle worker receives a HEARTBEAT on every sweep
regardless of its `next_heartbeat_time`, and the sweep never modifies
the state, so `next_heartbeat_time` is never advanced. -/
theorem claim_C9_heartbeat_untimed (st : DState) (k : String) (w : Worker)
    (hmem : (k, w) ∈ st.workers) (hidle : w.outstanding_items = []) :
    Output.heartbeat k ∈ send_heartbeat st
    ∧ coreStep st CoreEvent.tick = Except.ok (st, send_heartbeat st) := by
  constructor
  · unfold send_heartbeat
    refine List.mem_filterMap.mpr ⟨(k, w), hmem, ?_⟩
    simp [hidle]
  · rfl

theorem claim_C9_heartbeat_untimed_witness :
    (("w", c9w) ∈ c9st.workers
     ∧ c9w.outstanding_items = []
     ∧ c9w.next_heartbeat_time = 1000)
    ∧ Output.heartbeat "w" ∈ send_heartbeat c9st
    ∧ coreStep c9st CoreEvent.tick = Except.ok (c9st, send_heartbeat c9st) :=
  ⟨⟨List.mem_singleton.mpr rfl, rfl, rfl⟩,
   (claim_C9_heartbeat_untimed c9st "w" c9w (List.mem_singleton.mpr rfl) rfl).1,
   (claim_C9_heartbeat_untimed c9st "w" c9w (List.mem_singleton.mpr rfl) rfl).2⟩

/-! ### Claim C10: unrecognized verbs -/

/-- Claim C10, counterexample.  A well-formed envelope whose body is a
single part is not tolerated: `message.peekstr(3)` (line 214) indexes
one past the first body part, so a 3-part message throws
`std::out_of_range` out of the handler before the verb is even
examined. -/
theorem claim_C10_counterexample :
    on_worker_pollin initState ["w", "", "NONSENSE 1"]
      = Except.error Err.peekOutOfRange := by rfl

/-- Claim C10, amended.  Only envelopes with at least two body parts
reach the verb dispatch, and the verb examined is the second body part
(frame index 3): if it starts with neither `REGISTER ` nor
`COMPLETE `, the handler leaves the worker table and every item
untouched and merely drains the completion ledger — the outputs are
exactly the pending completions, with no reply, log line, or
disconnect for the sender.  A one-body-part envelope instead throws
`std::out_of_range` from `peekstr(3)`. -/
theorem claim_C10_unknown_verb (st : DState) (p0 p2 p3 : String)
    (rest : List String) (h0 : p0 ≠ "")
    (hr : strStarts p3 "REGISTER " = false)
    (hc : strStarts p3 "COMPLETE " = false) :
    on_worker_pollin st (p0 :: "" :: p2 :: p3 :: rest)
      = Except.ok ({ st with ledger := [], sent := st.sent ++ st.ledger },
                   st.ledger.map (fun s => Output.completion (idOf st s)))
    ∧ (send_pending_completions none st).1.workers = st.workers
    ∧ (send_pending_completions none st).1.created = st.created
    ∧ ∀ o ∈ (send_pending_completions none st).2, ∃ i, o = Output.completion i := by
  refine ⟨?_, rfl, rfl, ?_⟩
  · simp [on_worker_pollin, h0, hr, hc, send_pending_completions_none]
  · rw [send_pending_completions_none]
    intro o ho
    rcases List.mem_map.mp ho with ⟨s, _, hso⟩
    exact ⟨idOf st s, hso.symm⟩

theorem claim_C10_unknown_verb_witness :
    ("w" ≠ ""
     ∧ strStarts "NONSENSE 1" "REGISTER " = false
     ∧ strStarts "NONSENSE 1" "COMPLETE " = false)
    ∧ on_worker_pollin c10st ["w", "", "x", "NONSENSE 1"]
        = Except.ok ({ c10st with ledger := [], sent := c10st.sent ++ c10st.ledger },
                     c10st.ledger.map (fun s => Output.completion (idOf c10st s)))
    ∧ (send_pending_completions none c10st).1.workers = c10st.workers :=
  ⟨⟨by decide, by rfl, by rfl⟩,
   (claim_C10_unknown_verb c10st "w" "x" "NONSENSE 1" [] (by decide) (by rfl) (by rfl)).1,
   (claim_C10_unknown_verb c10st "w" "x" "NONSENSE 1" [] (by decide) (by rfl) (by rfl)).2.1⟩
